import Mathlib

/-!
# mDNS `.local` to `.lan` responder: embedding of `main.go`

Go strings and byte slices are lists of byte values (`Nat`, each below 256).
A run-time abort (index out of range, nil dereference) is `none`.
-/

namespace Imposter

/-- A Go `string` / `[]byte`: the sequence of its bytes. -/
abbrev Bytes := List Nat

/-- The separator `".local"`. -/
def dotLocal : Bytes := [46, 108, 111, 99, 97, 108]

/-- The separator `"."`. -/
def dot : Bytes := [46]

/-- The separator `"\n"`. -/
def newline : Bytes := [10]

/-! ## `bytes.Index`, `bytes.Contains`, `bytes.Split` / `strings.Split` -/

/-- Go `bytes.HasPrefix(s, p)`. -/
def hasPrefix : Bytes → Bytes → Bool
  | _, [] => true
  | [], _ :: _ => false
  | c :: s, d :: p => c == d && hasPrefix s p

/-- Go `bytes.Index(s, sep)`: offset of the first occurrence of `sep`, `none` for -1. -/
def index (sep : Bytes) : Bytes → Option Nat
  | [] => if hasPrefix [] sep then some 0 else none
  | c :: s =>
    if hasPrefix (c :: s) sep then some 0
    else (index sep s).map (· + 1)

/-- Go `bytes.Contains(b, sub)`. -/
def contains (b sub : Bytes) : Bool := (index sub b).isSome

/-- The loop of Go `genSplit` for a non-empty separator: `n` bounds the number of cuts. -/
def genSplit (sep : Bytes) : Nat → Bytes → List Bytes
  | 0, s => [s]
  | n + 1, s =>
    match index sep s with
    | none => [s]
    | some m => s.take m :: genSplit sep n (s.drop (m + sep.length))

/-- Go `bytes.Split(s, sep)` / `strings.Split(s, sep)` for a non-empty `sep`. Go bounds
the loop by `Count(s, sep)`; every cut consumes at least one byte, so `len(s)` cuts are
never exceeded and the bound `s.length` yields the same slices. -/
def split (s sep : Bytes) : List Bytes := genSplit sep s.length s

/-! ## `net.ParseIP(ip).To4()` -/

/-- The body of Go `parseIPv4Fields`: `first` is `i == 0`, `prevDot` is `s[i-1] == '.'`,
`fields` holds the `pos` octets stored so far. -/
def parseIPv4Fields : Bytes → Bool → Bool → Nat → Nat → Nat → List Nat → Option (List Nat)
  | [], _, _, val, pos, _, fields =>
    if pos < 3 then none else some (fields ++ [val % 256])
  | c :: rest, first, prevDot, val, pos, digLen, fields =>
    if 48 ≤ c ∧ c ≤ 57 then
      if digLen = 1 ∧ val = 0 then none
      else if val * 10 + (c - 48) > 255 then none
      else parseIPv4Fields rest false false (val * 10 + (c - 48)) pos (digLen + 1) fields
    else if c = 46 then
      if first ∨ rest = [] ∨ prevDot then none
      else if pos = 3 then none
      else parseIPv4Fields rest false true 0 (pos + 1) 0 (fields ++ [val % 256])
    else none

/-- Go `parseIPv4`: the four octets of a dotted-decimal address. -/
def parseIPv4 (s : Bytes) : Option (List Nat) := parseIPv4Fields s true false 0 0 0 []

/-- Value of a hexadecimal digit. -/
def hexVal (c : Nat) : Option Nat :=
  if 48 ≤ c ∧ c ≤ 57 then some (c - 48)
  else if 97 ≤ c ∧ c ≤ 102 then some (c - 97 + 10)
  else if 65 ≤ c ∧ c ≤ 70 then some (c - 65 + 10)
  else none

/-- The hex-group scan of Go `parseIPv6`: `some (off, acc)` or `none` on error. -/
def scanHex : Bytes → Nat → Nat → Option (Nat × Nat)
  | [], off, acc => some (off, acc)
  | c :: rest, off, acc =>
    match hexVal c with
    | none => some (off, acc)
    | some d =>
      if off > 3 then none
      else if acc * 16 + d > 65535 then none
      else scanHex rest (off + 1) (acc * 16 + d)

/-- The group loop of Go `parseIPv6`: `ip` holds the `i = ip.length` bytes written so far,
`ell` is the ellipsis position. Yields the bytes written, the ellipsis and the unread rest. -/
def parseIPv6Loop : Nat → Bytes → List Nat → Option Nat → Option (List Nat × Option Nat × Bytes)
  | 0, s, ip, ell => some (ip, ell, s)
  | fuel + 1, s, ip, ell =>
    if ip.length < 16 then
      match scanHex s 0 0 with
      | none => none
      | some (off, acc) =>
        if off = 0 then none
        else if (s.drop off).head? = some 46 then
          if ell = none ∧ ip.length ≠ 12 then none
          else if ip.length + 4 > 16 then none
          else match parseIPv4 s with
            | none => none
            | some f => some (ip ++ f, ell, [])
        else
          let ip1 := ip ++ [acc / 256, acc % 256]
          match s.drop off with
          | [] => some (ip1, ell, [])
          | c :: s1 =>
            if c ≠ 58 then none
            else match s1 with
              | [] => none
              | c1 :: s2 =>
                if c1 = 58 then
                  if ell.isSome then none
                  else if s2 = [] then some (ip1, some ip1.length, [])
                  else parseIPv6Loop fuel s2 ip1 (some ip1.length)
                else parseIPv6Loop fuel (c1 :: s2) ip1 ell
    else some (ip, ell, s)

/-- Go `parseIPv6`: the 16 address bytes and the zone. -/
def parseIPv6 (input : Bytes) : Option (List Nat × Bytes) :=
  let cut : Option (Bytes × Bytes) :=
    match index [37] input with
    | none => some (input, [])
    | some i => if input.drop (i + 1) = [] then none else some (input.take i, input.drop (i + 1))
  match cut with
  | none => none
  | some (s, zone) =>
    let lead : Bool := hasPrefix s [58, 58]
    let s0 := if lead then s.drop 2 else s
    if lead ∧ s0 = [] then some (List.replicate 16 0, zone)
    else
      match parseIPv6Loop 9 s0 [] (if lead then some 0 else none) with
      | none => none
      | some (ip, ell, rest) =>
        if rest ≠ [] then none
        else if ip.length < 16 then
          match ell with
          | none => none
          | some e => some (ip.take e ++ List.replicate (16 - ip.length) 0 ++ ip.drop e, zone)
        else if ell.isSome then none
        else some (ip, zone)

/-- The 16-byte form of an IPv4 address (Go `Addr.As16` of a 4-byte address). -/
def v4InV6 (f : List Nat) : List Nat := List.replicate 10 0 ++ [255, 255] ++ f

/-- Go `netip.ParseAddr` followed by `As16`, as `net.parseIP` does: dispatch on the first
`.`, `:` or `%`; an address with a zone is rejected. -/
def parseAddr16 (whole : Bytes) : Bytes → Option (List Nat)
  | [] => none
  | c :: rest =>
    if c = 46 then (parseIPv4 whole).map v4InV6
    else if c = 58 then
      match parseIPv6 whole with
      | some (ip, []) => some ip
      | _ => none
    else if c = 37 then none
    else parseAddr16 whole rest

/-- Go `net.ParseIP(s)`: the 16-byte address, `none` for nil. -/
def parseIP (s : Bytes) : Option (List Nat) := parseAddr16 s s

/-- Go `IP.To4` on the result of `ParseIP`: nil stays nil, a 16-byte address with the
v4-in-v6 prefix yields its last four bytes, any other address yields nil. -/
def to4 : Option (List Nat) → Option (List Nat)
  | none => none
  | some ip =>
    if ip.length = 4 then some ip
    else if ip.length = 16 ∧ ip.take 10 = List.replicate 10 0 ∧ ip.getD 10 0 = 255
        ∧ ip.getD 11 0 = 255 then some (ip.drop 12)
    else none

/-! ## `buildFakeMDNSResponse` -/

/-- The label loop of `buildFakeMDNSResponse`: stops at the first empty label; each label
is written as `byte(len(label))` followed by its bytes. -/
def writeLabels : List Bytes → Bytes → Bytes
  | [], buf => buf
  | label :: rest, buf =>
    if label = [] then buf
    else writeLabels rest (buf ++ [label.length % 256] ++ label)

/-- The six header fields written first. -/
def header : Bytes := [0x00, 0x00] ++ [0x84, 0x00] ++ [0x00, 0x00] ++ [0x00, 0x01]
  ++ [0x00, 0x00] ++ [0x00, 0x00]

/-- Type A, class IN, TTL 60 s, RDLENGTH 4. -/
def fixedFields : Bytes := [0x00, 0x01] ++ [0x00, 0x01] ++ [0x00, 0x00, 0x00, 0x3c]
  ++ [0x00, 0x04]

/-- The bytes `buf.Write(net.ParseIP(ip).To4())` appends: nothing for a nil slice. -/
def rdata (ip : Bytes) : Bytes := (to4 (parseIP ip)).getD []

/-- Go `buildFakeMDNSResponse(name, ip)`. -/
def buildFakeMDNSResponse (name ip : Bytes) : Bytes :=
  let buf := header
  let buf := writeLabels (split name dot) buf
  let buf := buf ++ [0x00]
  let buf := buf ++ fixedFields
  buf ++ rdata ip

/-! ## UTF-8 decoding and `unicode.IsSpace` -/

/-- Go `utf8.RuneError`. -/
def runeError : Nat := 0xFFFD

/-- Go `utf8.first` with `utf8.acceptRanges`: for a leading byte of a multi-byte sequence the
sequence length and the accepted range of the second byte; `none` for ASCII and invalid bytes. -/
def leadInfo (s0 : Nat) : Option (Nat × Nat × Nat) :=
  if 0xC2 ≤ s0 ∧ s0 ≤ 0xDF then some (2, 0x80, 0xBF)
  else if s0 = 0xE0 then some (3, 0xA0, 0xBF)
  else if 0xE1 ≤ s0 ∧ s0 ≤ 0xEC then some (3, 0x80, 0xBF)
  else if s0 = 0xED then some (3, 0x80, 0x9F)
  else if 0xEE ≤ s0 ∧ s0 ≤ 0xEF then some (3, 0x80, 0xBF)
  else if s0 = 0xF0 then some (4, 0x90, 0xBF)
  else if 0xF1 ≤ s0 ∧ s0 ≤ 0xF3 then some (4, 0x80, 0xBF)
  else if s0 = 0xF4 then some (4, 0x80, 0x8F)
  else none

/-- Go `utf8.DecodeRuneInString`: the rune and its width in bytes. The masks `s0&0x1F`,
`s0&0x0F`, `s0&0x07`, `s&0x3F` are remainders, the shifts are multiplications. -/
def decodeRune : Bytes → Nat × Nat
  | [] => (runeError, 0)
  | s0 :: t =>
    match leadInfo s0 with
    | none => (if s0 < 0x80 then s0 else runeError, 1)
    | some (sz, lo, hi) =>
      if t.length + 1 < sz then (runeError, 1)
      else match t with
        | [] => (runeError, 1)
        | s1 :: t1 =>
          if s1 < lo ∨ hi < s1 then (runeError, 1)
          else if sz ≤ 2 then (s0 % 32 * 64 + s1 % 64, 2)
          else match t1 with
            | [] => (runeError, 1)
            | s2 :: t2 =>
              if s2 < 0x80 ∨ 0xBF < s2 then (runeError, 1)
              else if sz ≤ 3 then (s0 % 16 * 4096 + s1 % 64 * 64 + s2 % 64, 3)
              else match t2 with
                | [] => (runeError, 1)
                | s3 :: _ =>
                  if s3 < 0x80 ∨ 0xBF < s3 then (runeError, 1)
                  else (s0 % 8 * 262144 + s1 % 64 * 4096 + s2 % 64 * 64 + s3 % 64, 4)

/-- Go `utf8.RuneStart`: the byte is not a continuation byte. -/
def runeStart (b : Nat) : Bool := !(0x80 ≤ b && b ≤ 0xBF)

/-- The backward scan of Go `utf8.DecodeLastRuneInString` for the start of the last rune. -/
def lastRuneStart (s : Bytes) (lim : Int) : Nat → Int → Int
  | 0, start => start
  | fuel + 1, start =>
    if start ≥ lim then
      if runeStart (s.getD start.toNat 0) then start
      else lastRuneStart s lim fuel (start - 1)
    else start

/-- Go `utf8.DecodeLastRuneInString`. -/
def decodeLastRune (s : Bytes) : Nat × Nat :=
  if s.length = 0 then (runeError, 0)
  else
    let r := s.getD (s.length - 1) 0
    if r < 0x80 then (r, 1)
    else
      let e : Int := s.length
      let lim : Int := if e - 4 < 0 then 0 else e - 4
      let start := lastRuneStart s lim 4 (e - 2)
      let start := if start < 0 then 0 else start
      let d := decodeRune (s.drop start.toNat)
      if start + (d.2 : Int) ≠ e then (runeError, 1) else d

/-- Go `unicode.IsSpace`. -/
def isSpace (r : Nat) : Bool :=
  if r ≤ 0xFF then
    r = 9 ∨ r = 10 ∨ r = 11 ∨ r = 12 ∨ r = 13 ∨ r = 32 ∨ r = 0x85 ∨ r = 0xA0
  else
    r = 0x1680 ∨ (0x2000 ≤ r ∧ r ≤ 0x200a) ∨ (0x2028 ≤ r ∧ r ≤ 0x2029) ∨ r = 0x202f
      ∨ r = 0x205f ∨ r = 0x3000

/-! ## `strings.TrimSpace`, `strings.Fields` -/

/-- Go `strings.TrimLeftFunc(s, unicode.IsSpace)`: drop leading white-space runes. -/
def trimLeft : Nat → Bytes → Bytes
  | 0, s => s
  | fuel + 1, s =>
    if s = [] then []
    else if isSpace (decodeRune s).1 then trimLeft fuel (s.drop (decodeRune s).2)
    else s

/-- Go `lastIndexFunc(s, unicode.IsSpace, false)`: offset of the last rune that is not
white space, `none` for -1. -/
def lastIndexFunc : Nat → Bytes → Option Nat
  | 0, _ => none
  | fuel + 1, s =>
    if s = [] then none
    else if isSpace (decodeLastRune s).1 then
      lastIndexFunc fuel (s.take (s.length - (decodeLastRune s).2))
    else some (s.length - (decodeLastRune s).2)

/-- Go `strings.TrimRightFunc(s, unicode.IsSpace)`. -/
def trimRight (s : Bytes) : Bytes :=
  match lastIndexFunc s.length s with
  | some i =>
    if s.getD i 0 ≥ 0x80 then s.take (i + (decodeRune (s.drop i)).2)
    else s.take (i + 1)
  | none => []

/-- Go `strings.TrimSpace(s)`: all leading and trailing white space removed, as defined by
Unicode. Go runs a byte loop over leading and trailing ASCII and hands the rest to
`TrimFunc`/`TrimRightFunc`; the result is that of `TrimFunc(s, unicode.IsSpace)`. -/
def trimSpace (s : Bytes) : Bytes := trimRight (trimLeft s.length s)

/-- The rune loop of Go `strings.FieldsFunc(s, unicode.IsSpace)`: `cur` is the field that is
open (`start >= 0`), closed by the next white-space rune or by the end of the string. -/
def fieldsLoop : Nat → Bytes → Option Bytes → List Bytes
  | 0, _, cur => cur.toList
  | fuel + 1, s, cur =>
    if s = [] then cur.toList
    else if isSpace (decodeRune s).1 then
      cur.toList ++ fieldsLoop fuel (s.drop (decodeRune s).2) none
    else fieldsLoop fuel (s.drop (decodeRune s).2) (some (cur.getD [] ++ s.take (decodeRune s).2))

/-- Go `strings.Fields(s)`: the maximal runs of runes that are not white space. -/
def fields (s : Bytes) : List Bytes := fieldsLoop s.length s none

/-! ## `extractName` -/

/-- Go `xs[len(xs)-1]`: aborts on an empty slice. -/
def lastElem (xs : List Bytes) : Option Bytes :=
  if xs.length = 0 then none else xs.get? (xs.length - 1)

/-- Go `extractName(data)`; `none` is an index-out-of-range abort. -/
def extractName (data : Bytes) : Option Bytes :=
  let parts := split data dotLocal
  if parts.length = 0 then some []
  else
    match parts.get? 0 with
    | none => none
    | some p0 =>
      let raw := trimSpace p0
      let lines := split raw newline
      match lastElem lines with
      | none => none
      | some last =>
        let fs := fields last
        if fs.length = 0 then some []
        else lastElem fs

/-! ## The cache and `getCachedIP` -/

/-- Go `cacheEntry`; `expiresAt` is an instant on the clock's time line. -/
structure CacheEntry where
  ip : Bytes
  expiresAt : Int
deriving DecidableEq, Repr

/-- Go `map[string]*cacheEntry`: `none` is a missing key, `some none` a nil pointer. -/
abbrev Cache := Bytes → Option (Option CacheEntry)

/-- Go `getCachedIP(name)` at clock reading `now`; `none` is a nil dereference. `After` is
the strict order on instants. -/
def getCachedIP (cache : Cache) (now : Int) (name : Bytes) : Option Bytes :=
  match cache name with
  | none => some []
  | some none => none
  | some (some e) => if now > e.expiresAt then some [] else some e.ip

/-! ## One iteration of the responder loop -/

/-- Go `net.UDPAddr`. -/
structure UDPAddr where
  ip : List Nat
  port : Nat
deriving DecidableEq, Repr

/-- What `conn.ReadFromUDP(buf)` delivers: an error, or a datagram and its source. -/
inductive Recv where
  | error
  | datagram (payload : Bytes) (src : UDPAddr)

/-- What an iteration does to the outside: reads of the shared cache, log lines, sends. -/
inductive Effect where
  | logReadError
  | cacheRead (name : Bytes)
  | logNoCachedIP (name : Bytes)
  | writeToUDP (payload : Bytes) (dst : UDPAddr)
deriving DecidableEq, Repr

/-- The body of the `for` loop of `main` at clock reading `now`: the cache afterwards and the
effects in order; `none` is a run-time abort. `buf` has 1024 bytes, so `buf[:n]` is the
datagram cut to 1024 bytes. -/
def loopIteration (cache : Cache) (now : Int) : Recv → Option (Cache × List Effect)
  | Recv.error => some (cache, [Effect.logReadError])
  | Recv.datagram payload src =>
    let data := payload.take 1024
    if !contains data dotLocal then some (cache, [])
    else
      match extractName data with
      | none => none
      | some name =>
        if name = [] then some (cache, [])
        else
          match getCachedIP cache now name with
          | none => none
          | some ip =>
            if ip = [] then some (cache, [Effect.cacheRead name, Effect.logNoCachedIP name])
            else some (cache, [Effect.cacheRead name,
              Effect.writeToUDP (buildFakeMDNSResponse (name ++ dotLocal ++ dot) ip) src])

/-- The datagrams sent by a list of effects. -/
def sent : List Effect → List (Bytes × UDPAddr)
  | [] => []
  | Effect.writeToUDP p d :: es => (p, d) :: sent es
  | _ :: es => sent es

/-! ## Concrete data used by the worked instances -/

/-- The name `"foo"`. -/
def fooName : Bytes := [102, 111, 111]

/-- The name `"foo.local"`. -/
def fooLocal : Bytes := [102, 111, 111, 46, 108, 111, 99, 97, 108]

/-- The address `"192.168.1.42"`. -/
def ip42 : Bytes := [49, 57, 50, 46, 49, 54, 56, 46, 49, 46, 52, 50]

/-- The address `"::1"`. -/
def ipLoopback6 : Bytes := [58, 58, 49]

/-- A cache with the single entry `foo -> 192.168.1.42`, expiring at instant 300. -/
def fooCache : Cache := fun k => if k = fooName then some (some ⟨ip42, 300⟩) else none

/-- A querier's address. -/
def querier : UDPAddr := ⟨[192, 168, 1, 7], 5353⟩

/-- The single-question query for `n.local` in DNS wire format: 12-byte header with
QDCOUNT 1, the length-prefixed labels `n` and `local`, the root label, QTYPE A, QCLASS IN. -/
def simpleQuery (n : Bytes) : Bytes :=
  [0, 0, 0, 0, 0, 1, 0, 0, 0, 0, 0, 0] ++ [n.length] ++ n ++ [5, 108, 111, 99, 97, 108] ++ [0]
    ++ [0, 1] ++ [0, 1]

/-- The name section of section 4.2 for labels shorter than 256 bytes: every label preceded
by its length as one byte. -/
def lengthPrefixed : List Bytes → Bytes
  | [] => []
  | l :: ls => [l.length] ++ l ++ lengthPrefixed ls

/-- Labels as the builder writes them: every label preceded by the byte `byte(len(label))`. -/
def encodeLabels : List Bytes → Bytes
  | [] => []
  | l :: ls => [l.length % 256] ++ l ++ encodeLabels ls

/-- The test `label != ""` of the builder's loop. -/
def nonEmpty (l : Bytes) : Bool := decide (l ≠ [])

/-- Decimal rendering of an octet, without leading zeros. -/
def decimal (a : Nat) : Bytes :=
  if a < 10 then [48 + a]
  else if a < 100 then [48 + a / 10, 48 + a % 10]
  else [48 + a / 100, 48 + a / 10 % 10, 48 + a % 10]

/-- The dotted-decimal text `a.b.c.d`. -/
def dotted (a b c d : Nat) : Bytes :=
  decimal a ++ [46] ++ decimal b ++ [46] ++ decimal c ++ [46] ++ decimal d

/-- The query text `" bar.local"`. -/
def barQuery : Bytes := [32, 98, 97, 114, 46, 108, 111, 99, 97, 108]

/-- The query text `" foo.local"`. -/
def fooQuery : Bytes := [32, 102, 111, 111, 46, 108, 111, 99, 97, 108]

/-- The bytes of `data` before the first `.local`, all of `data` when there is none. -/
def beforeDotLocal (data : Bytes) : Bytes :=
  match index dotLocal data with
  | none => data
  | some m => data.take m

/-- The string is empty or begins with a byte that is not a continuation byte. -/
def startsRune : Bytes → Bool
  | [] => true
  | c :: _ => runeStart c

/-- Some position of the string starts the UTF-8 encoding of a white-space character. -/
def containsSpace : Bytes → Bool
  | [] => false
  | c :: t => isSpace (decodeRune (c :: t)).1 || containsSpace t

/-- The string is the UTF-8 encoding of one white-space character. -/
def isSpaceChar (w : Bytes) : Bool :=
  isSpace (decodeRune w).1 && (decodeRune w).2 == w.length

/-- A cache with the single entry `"" -> 192.168.1.42`, expiring at instant 300. -/
def emptyKeyCache : Cache := fun k => if k = [] then some (some ⟨ip42, 300⟩) else none

/-- The name `"a..b"`. -/
def abName : Bytes := [97, 46, 46, 98]

/-- A cache with the single entry `a..b -> 192.168.1.42`, expiring at instant 300. -/
def abCache : Cache := fun k => if k = abName then some (some ⟨ip42, 300⟩) else none

/-- The section 4.2 packet for a list of labels and an address: the fixed header, every
label preceded by its length byte, 00, type, class, TTL, RDLENGTH, the four address bytes. -/
def layout (labels : List Bytes) (a b c d : Nat) : Bytes :=
  [0x00, 0x00, 0x84, 0x00, 0x00, 0x00, 0x00, 0x01, 0x00, 0x00, 0x00, 0x00]
    ++ lengthPrefixed labels ++ [0x00]
    ++ [0x00, 0x01, 0x00, 0x01, 0x00, 0x00, 0x00, 0x3c, 0x00, 0x04] ++ [a, b, c, d]

/-- A resource record as a reference DNS decoder delivers it. -/
structure Record where
  name : List Bytes
  rtype : Nat
  rclass : Nat
  ttl : Nat
  rdata : Bytes
deriving DecidableEq, Repr

/-- A question as a reference DNS decoder delivers it. -/
structure Question where
  name : List Bytes
  qtype : Nat
  qclass : Nat
deriving DecidableEq, Repr

/-- A DNS message as a reference decoder delivers it. -/
structure Message where
  id : Nat
  flags : Nat
  questions : List Question
  answers : List Record
  authority : List Record
  additional : List Record
deriving DecidableEq, Repr

/-- Reference decoder, names: uncompressed length-prefixed labels up to the 00 byte; a length
byte above 63 (a compression pointer or a reserved form) is refused. -/
def decodeName : Nat → Bytes → Option (List Bytes × Bytes)
  | 0, _ => none
  | _ + 1, [] => none
  | fuel + 1, len :: rest =>
    if len = 0 then some ([], rest)
    else if len > 63 then none
    else if rest.length < len then none
    else
      match decodeName fuel (rest.drop len) with
      | none => none
      | some (labels, rest1) => some (rest.take len :: labels, rest1)

/-- Reference decoder, one question: name, type, class. -/
def decodeQuestion (s : Bytes) : Option (Question × Bytes) :=
  match decodeName s.length s with
  | some (name, t0 :: t1 :: c0 :: c1 :: rest) =>
    some (⟨name, t0 * 256 + t1, c0 * 256 + c1⟩, rest)
  | _ => none

/-- Reference decoder, one resource record: name, type, class, TTL, RDLENGTH, RDATA. -/
def decodeRecord (s : Bytes) : Option (Record × Bytes) :=
  match decodeName s.length s with
  | some (name, t0 :: t1 :: c0 :: c1 :: l0 :: l1 :: l2 :: l3 :: r0 :: r1 :: rest) =>
    if rest.length < r0 * 256 + r1 then none
    else some (⟨name, t0 * 256 + t1, c0 * 256 + c1, ((l0 * 256 + l1) * 256 + l2) * 256 + l3,
      rest.take (r0 * 256 + r1)⟩, rest.drop (r0 * 256 + r1))
  | _ => none

/-- Reference decoder, `n` questions in a row. -/
def decodeQuestions : Nat → Bytes → Option (List Question × Bytes)
  | 0, s => some ([], s)
  | n + 1, s =>
    match decodeQuestion s with
    | none => none
    | some (q, rest) =>
      match decodeQuestions n rest with
      | none => none
      | some (qs, rest1) => some (q :: qs, rest1)

/-- Reference decoder, `n` resource records in a row. -/
def decodeRecords : Nat → Bytes → Option (List Record × Bytes)
  | 0, s => some ([], s)
  | n + 1, s =>
    match decodeRecord s with
    | none => none
    | some (r, rest) =>
      match decodeRecords n rest with
      | none => none
      | some (rs, rest1) => some (r :: rs, rest1)

/-- Reference decoder, a whole message: the 12-byte header, then as many questions, answers,
authority and additional records as the header counts; the bytes left over come with it. -/
def decodeMessage (s : Bytes) : Option (Message × Bytes) :=
  match s with
  | i0 :: i1 :: f0 :: f1 :: q0 :: q1 :: a0 :: a1 :: n0 :: n1 :: r0 :: r1 :: body =>
    match decodeQuestions (q0 * 256 + q1) body with
    | none => none
    | some (qs, s1) =>
      match decodeRecords (a0 * 256 + a1) s1 with
      | none => none
      | some (an, s2) =>
        match decodeRecords (n0 * 256 + n1) s2 with
        | none => none
        | some (ns, s3) =>
          match decodeRecords (r0 * 256 + r1) s3 with
          | none => none
          | some (ar, s4) => some (⟨i0 * 256 + i1, f0 * 256 + f1, qs, an, ns, ar⟩, s4)
  | _ => none

/-- The suffix `".lan"`. -/
def dotLan : Bytes := [46, 108, 97, 110]

/-- Go `5 * time.Minute`, a `time.Duration` in nanoseconds. -/
def fiveMinutes : Int := 5 * (60 * 1000000000)

/-- Go `strings.TrimSuffix(s, suffix)`. -/
def trimSuffix (s suffix : Bytes) : Bytes :=
  if suffix.length ≤ s.length ∧ s.drop (s.length - suffix.length) = suffix then
    s.take (s.length - suffix.length)
  else s

/-- Go `make(map[string]*cacheEntry)`: the empty map. -/
def emptyCache : Cache := fun _ => none

/-- Go `cache[k] = &cacheEntry{...}`. -/
def update (c : Cache) (k : Bytes) (e : CacheEntry) : Cache :=
  fun k1 => if k1 = k then some (some e) else c k1

/-- The `for` loop of `refreshCache` from list position `i` on. `resolve i host` is what
`net.LookupHost(host)` returns at position `i` (`none` for an error), `clock i` the reading
of `time.Now()` there. The log line is not modelled. -/
def refreshLoop (resolve : Nat → Bytes → Option (List Bytes)) (clock : Nat → Int) :
    List Bytes → Nat → Cache → Cache
  | [], _, c => c
  | loc :: rest, i, c =>
    match resolve i (trimSuffix loc dotLocal ++ dotLan) with
    | none => refreshLoop resolve clock rest (i + 1) c
    | some [] => refreshLoop resolve clock rest (i + 1) c
    | some (ip0 :: _) =>
      refreshLoop resolve clock rest (i + 1) (update c loc ⟨ip0, clock i + fiveMinutes⟩)

/-- Go `refreshCache()` with the list `names` and the resolver as parameters. -/
def refreshCache (names : List Bytes) (resolve : Nat → Bytes → Option (List Bytes))
    (clock : Nat → Int) (c : Cache) : Cache :=
  refreshLoop resolve clock names 0 c

/-- The list `names` as `refreshCache` has it in the source: empty. -/
def knownNames : List Bytes := []

/-- The resolution at list position `i` fails: an error or no address. -/
def fails (resolve : Nat → Bytes → Option (List Bytes)) (i : Nat) (loc : Bytes) : Prop :=
  resolve i (trimSuffix loc dotLocal ++ dotLan) = none
    ∨ resolve i (trimSuffix loc dotLocal ++ dotLan) = some []

/-- The name `"bar.local"`. -/
def barLocal : Bytes := [98, 97, 114, 46, 108, 111, 99, 97, 108]

/-- The host `"foo.lan"`. -/
def fooLan : Bytes := [102, 111, 111, 46, 108, 97, 110]

/-- The address `"10.0.0.1"`. -/
def ip10 : Bytes := [49, 48, 46, 48, 46, 48, 46, 49]

/-- A known-names list in which `foo.local` occurs twice. -/
def sampleNames : List Bytes := [fooLocal, barLocal, fooLocal]

/-- A resolver: `foo.lan` resolves to `10.0.0.1` at position 0 and to `192.168.1.42` and
`::1` at position 2; everything else is an error. -/
def sampleResolve : Nat → Bytes → Option (List Bytes) := fun i host =>
  if host = fooLan then
    if i = 0 then some [ip10] else if i = 2 then some [ip42, ipLoopback6] else none
  else none

/-- A clock: position `i` is reached at instant `1000 + i`. -/
def sampleClock : Nat → Int := fun i => 1000 + i

/-- A cache holding `bar.local -> 10.0.0.1`, expiring at instant 7. -/
def barCache : Cache := fun k => if k = barLocal then some (some ⟨ip10, 7⟩) else none

/-- One refresh pass: the list, the resolver and the clock it runs with. -/
structure Pass where
  names : List Bytes
  resolve : Nat → Bytes → Option (List Bytes)
  clock : Nat → Int

/-- The cache after a sequence of refresh passes. -/
def runPasses : List Pass → Cache → Cache
  | [], c => c
  | p :: ps, c => runPasses ps (refreshCache p.names p.resolve p.clock c)

/-- What the two goroutines of the program do, one step at a time: a refresh pass (with the
resolver and clock it meets) or one iteration of the responder loop. -/
inductive Event where
  | refresh (resolve : Nat → Bytes → Option (List Bytes)) (clock : Nat → Int)
  | packet (now : Int) (recv : Recv)

/-- The program as written, run over a sequence of events from a cache: the cache afterwards
and all effects, `none` for a run-time abort. The refresh pass uses `knownNames`. -/
def mainRun : List Event → Cache → Option (Cache × List Effect)
  | [], c => some (c, [])
  | Event.refresh resolve clock :: es, c => mainRun es (refreshCache knownNames resolve clock c)
  | Event.packet now recv :: es, c =>
    match loopIteration c now recv with
    | none => none
    | some (c1, effs) =>
      match mainRun es c1 with
      | none => none
      | some (c2, effs2) => some (c2, effs ++ effs2)

/-- The last white-space-separated token of a string, the empty string when it has none. -/
def lastToken (s : Bytes) : Bytes := ((fields s).getLast?).getD []

/-- The bytes after the last newline of a string: the last line. -/
def lastLine (s : Bytes) : Bytes := ((split s newline).getLast?).getD []

/-- The forward scan behind "consists only of white space": every rune is white space. -/
def onlySpaceLoop : Nat → Bytes → Bool
  | 0, s => decide (s = [])
  | fuel + 1, s =>
    if s = [] then true
    else isSpace (decodeRune s).1 && onlySpaceLoop fuel (s.drop (decodeRune s).2)

/-- The string is empty or consists only of white-space characters. -/
def onlySpace (s : Bytes) : Bool := onlySpaceLoop s.length s

/-- A label of 256 bytes `a`. -/
def longLabel : Bytes := List.replicate 256 97

/-- The packet `" " ++ longLabel ++ ".local"`, 263 bytes. -/
def longQuery : Bytes := [32] ++ longLabel ++ dotLocal

/-! ## Cache lookup -/

/-- C2: a present entry read before its `expiresAt` yields its address; read after its
`expiresAt`, or with no entry for the name, the lookup yields the empty string. -/
theorem getCachedIP_lookup (cache : Cache) (now : Int) (name : Bytes) :
    (∀ e, cache name = some (some e) → now < e.expiresAt →
        getCachedIP cache now name = some e.ip)
    ∧ (∀ e, cache name = some (some e) → e.expiresAt < now →
        getCachedIP cache now name = some [])
    ∧ (cache name = none → getCachedIP cache now name = some []) := by
  refine ⟨?_, ?_, ?_⟩
  · intro e h hlt
    have : ¬ now > e.expiresAt := by omega
    simp [getCachedIP, h, this]
  · intro e h hlt
    have : now > e.expiresAt := hlt
    simp [getCachedIP, h, this]
  · intro h
    simp [getCachedIP, h]

/-- Instance of C2: `foo` at instants 5 and 500, and a name that is not cached. -/
theorem getCachedIP_lookup_witness :
    getCachedIP fooCache 5 fooName = some ip42
    ∧ getCachedIP fooCache 500 fooName = some []
    ∧ getCachedIP fooCache 5 [98] = some [] :=
  ⟨(getCachedIP_lookup fooCache 5 fooName).1 ⟨ip42, 300⟩ (by decide) (by decide),
   (getCachedIP_lookup fooCache 500 fooName).2.1 ⟨ip42, 300⟩ (by decide) (by decide),
   (getCachedIP_lookup fooCache 5 [98]).2.2 (by decide)⟩

/-- C3 fails as stated: a lookup can return an entry's address while the clock is not
strictly before `expiresAt`; at `now = expiresAt = 300` the address is still returned. -/
theorem getCachedIP_strict_counterexample :
    ¬ (∀ (cache : Cache) (now : Int) (name : Bytes) (e : CacheEntry),
        cache name = some (some e) → e.ip ≠ [] →
        getCachedIP cache now name = some e.ip → now < e.expiresAt) := by
  intro h
  have := h fooCache 300 fooName ⟨ip42, 300⟩ (by decide) (by decide) (by decide)
  exact absurd this (by decide)

/-- C3 amended: a lookup that returns a non-empty address returns the address of the entry
stored for the name, and the clock is then not after that entry's `expiresAt`; a lookup at
the instant `now = expiresAt` returns the entry's address. -/
theorem getCachedIP_not_after (cache : Cache) (now : Int) (name ip : Bytes) :
    (getCachedIP cache now name = some ip → ip ≠ [] →
        ∃ e, cache name = some (some e) ∧ ip = e.ip ∧ now ≤ e.expiresAt)
    ∧ (∀ e, cache name = some (some e) → now = e.expiresAt →
        getCachedIP cache now name = some e.ip) := by
  constructor
  · intro h hne
    unfold getCachedIP at h
    cases hc : cache name with
    | none => simp [hc] at h; exact absurd h hne
    | some p =>
      cases p with
      | none => simp [hc] at h
      | some e =>
        simp only [hc] at h
        by_cases hgt : now > e.expiresAt
        · simp [hgt] at h; exact absurd h hne
        · simp [hgt] at h
          exact ⟨e, rfl, h.symm, by omega⟩
  · intro e h heq
    have : ¬ now > e.expiresAt := by omega
    simp [getCachedIP, h, this]

/-- Instance of C3 amended: `foo` read at instant 300, the entry's `expiresAt`. -/
theorem getCachedIP_not_after_witness :
    (∃ e, fooCache fooName = some (some e) ∧ ip42 = e.ip ∧ (300 : Int) ≤ e.expiresAt)
    ∧ getCachedIP fooCache 300 fooName = some ip42 :=
  ⟨(getCachedIP_not_after fooCache 300 fooName ip42).1 (by decide) (by decide),
   (getCachedIP_not_after fooCache 300 fooName ip42).2 ⟨ip42, 300⟩ (by decide) rfl⟩

/-! ## Wire-format queries and non-IPv4 addresses -/

/-- C5 fails on the code: the wire-format query for `foo.local` carries the byte 05 before
`local`, not a dot, so the `.local` filter rejects it and the iteration does nothing although
`foo` is cached; `extractName` on it yields the whole packet, not `foo`. -/
theorem simpleQuery_foo_rejected :
    contains (simpleQuery fooName) dotLocal = false
    ∧ (loopIteration fooCache 5 (Recv.datagram (simpleQuery fooName) querier)).map Prod.snd
        = some []
    ∧ extractName (simpleQuery fooName) = some (simpleQuery fooName)
    ∧ extractName (simpleQuery fooName) ≠ some fooName := by
  decide

/-- C9 fails on the code: for the cached address `::1` the packet ends with the RDLENGTH field
00 04 and no RDATA byte follows; its length is 12 + 11 + 10 + 0. -/
theorem buildFakeMDNSResponse_ipv6_no_rdata :
    buildFakeMDNSResponse (fooLocal ++ dot) ipLoopback6
      = header ++ [3, 102, 111, 111, 5, 108, 111, 99, 97, 108, 0] ++ fixedFields
    ∧ (buildFakeMDNSResponse (fooLocal ++ dot) ipLoopback6).length = 12 + 11 + 10 + 0
    ∧ rdata ipLoopback6 = [] := by
  decide

/-! ## Splitting on a single byte -/

theorem index_single_cons (c x : Nat) (s : Bytes) :
    index [c] (x :: s) = if x = c then some 0 else (index [c] s).map (· + 1) := by
  by_cases h : x = c <;> simp [index, hasPrefix, h]

theorem index_single_spec (c : Nat) : ∀ s : Bytes,
    (index [c] s = none ∧ c ∉ s)
    ∨ (∃ a b, s = a ++ c :: b ∧ c ∉ a ∧ index [c] s = some a.length) := by
  intro s
  induction s with
  | nil => left; simp [index, hasPrefix]
  | cons x s ih =>
    rw [index_single_cons]
    by_cases h : x = c
    · right
      exact ⟨[], s, by simp [h], by simp, by simp [h]⟩
    · rcases ih with ⟨hn, hm⟩ | ⟨a, b, hs, ha, hi⟩
      · left
        simp [h, hn, hm, Ne.symm h]
      · right
        refine ⟨x :: a, b, by simp [hs], ?_, ?_⟩
        · simp [ha, Ne.symm h]
        · simp [h, hi]

theorem genSplit_single (c : Nat) : ∀ (k : Nat) (s : Bytes), s.length ≤ k →
    genSplit [c] k s = s.splitOn c := by
  intro k
  induction k with
  | zero =>
    intro s hs
    have : s = [] := List.eq_nil_of_length_eq_zero (by omega)
    subst this
    simp [genSplit, List.splitOn]
  | succ k ih =>
    intro s hs
    rcases index_single_spec c s with ⟨hn, hm⟩ | ⟨a, b, hsab, ha, hi⟩
    · simp only [genSplit, hn]
      symm
      apply List.splitOnP_eq_single
      intro x hx
      simp
      intro hxc
      exact hm (hxc ▸ hx)
    · simp only [genSplit, hi]
      have hb : b.length ≤ k := by
        have := congrArg List.length hsab
        simp at this
        omega
      have h1 : s.take a.length = a := by simp [hsab]
      have h2 : s.drop (a.length + [c].length) = b := by
        subst hsab
        simp
      rw [h1, h2, ih b hb, hsab]
      symm
      apply List.splitOnP_first
      · intro x hx
        simp
        intro hxc
        exact ha (hxc ▸ hx)
      · simp

theorem split_single (c : Nat) (s : Bytes) : split s [c] = s.splitOn c :=
  genSplit_single c s.length s (Nat.le_refl _)

theorem splitOn_append_sep (c : Nat) (s : Bytes) :
    (s ++ [c]).splitOn c = s.splitOn c ++ [[]] := by
  induction s with
  | nil => simp [List.splitOn, List.splitOnP_cons]
  | cons x s ih =>
    simp only [List.splitOn] at ih ⊢
    simp only [List.cons_append, List.splitOnP_cons]
    by_cases h : (x == c) = true
    · simp [h, ih]
    · simp only [h, ih]
      have hne := List.splitOnP_ne_nil (fun y => y == c) s
      cases hsp : List.splitOnP (fun y => y == c) s with
      | nil => exact absurd hsp hne
      | cons l ls => simp [List.modifyHead]

/-! ## The label loop -/

theorem writeLabels_eq (ls : List Bytes) : ∀ buf : Bytes,
    writeLabels ls buf = buf ++ encodeLabels (ls.takeWhile nonEmpty) := by
  induction ls with
  | nil => intro buf; simp [writeLabels, encodeLabels]
  | cons l ls ih =>
    intro buf
    by_cases h : l = []
    · have hd : ¬ nonEmpty l = true := by simp [nonEmpty, h]
      rw [List.takeWhile_cons_of_neg hd]
      simp [writeLabels, h, encodeLabels]
    · have hd : nonEmpty l = true := by simp [nonEmpty, h]
      rw [List.takeWhile_cons_of_pos hd]
      simp [writeLabels, h, encodeLabels, ih]

theorem encodeLabels_eq_lengthPrefixed (ls : List Bytes) (h : ∀ l ∈ ls, l.length ≤ 255) :
    encodeLabels ls = lengthPrefixed ls := by
  induction ls with
  | nil => rfl
  | cons l ls ih =>
    have h1 : l.length % 256 = l.length := Nat.mod_eq_of_lt (by
      have := h l (by simp)
      omega)
    simp only [encodeLabels, lengthPrefixed, h1]
    rw [ih (fun l' hl' => h l' (by simp [hl']))]

theorem takeWhile_nonEmpty_all (ls : List Bytes) (h : ∀ l ∈ ls, l ≠ []) :
    ls.takeWhile nonEmpty = ls := by
  induction ls with
  | nil => rfl
  | cons l ls ih =>
    have hd : nonEmpty l = true := by simp [nonEmpty, h l (by simp)]
    rw [List.takeWhile_cons_of_pos hd, ih (fun l' hl' => h l' (by simp [hl']))]

theorem takeWhile_nonEmpty_append_nil (ls : List Bytes) :
    (ls ++ [[]]).takeWhile nonEmpty = ls.takeWhile nonEmpty := by
  induction ls with
  | nil => simp [List.takeWhile, nonEmpty]
  | cons l ls ih =>
    by_cases h : nonEmpty l = true
    · rw [List.cons_append, List.takeWhile_cons_of_pos h, List.takeWhile_cons_of_pos h, ih]
    · rw [List.cons_append, List.takeWhile_cons_of_neg h, List.takeWhile_cons_of_neg h]

theorem buildFakeMDNSResponse_eq_encode (name ip : Bytes) :
    buildFakeMDNSResponse name ip
      = header ++ encodeLabels ((split name dot).takeWhile nonEmpty)
          ++ [0x00] ++ fixedFields ++ rdata ip := by
  simp only [buildFakeMDNSResponse, writeLabels_eq]

theorem buildFakeMDNSResponse_append_dot (name ip : Bytes) :
    buildFakeMDNSResponse (name ++ dot) ip = buildFakeMDNSResponse name ip := by
  rw [buildFakeMDNSResponse_eq_encode, buildFakeMDNSResponse_eq_encode]
  simp only [dot, split_single, splitOn_append_sep, takeWhile_nonEmpty_append_nil]

/-- C10: the name section is the encoding of the labels of `strings.Split(name, ".")` that
precede the first empty label, followed by 00; hence a dot appended to the name does not
change the packet. -/
theorem buildFakeMDNSResponse_labels (name ip : Bytes) :
    buildFakeMDNSResponse name ip
        = header ++ encodeLabels ((split name dot).takeWhile nonEmpty)
            ++ [0x00] ++ fixedFields ++ rdata ip
    ∧ buildFakeMDNSResponse (name ++ dot) ip = buildFakeMDNSResponse name ip :=
  ⟨buildFakeMDNSResponse_eq_encode name ip, buildFakeMDNSResponse_append_dot name ip⟩

/-! ## Parsing a dotted-decimal address -/

theorem parseIPv4Fields_decimal (a : Nat) (ha : a < 256) (rest : Bytes) (first prevDot : Bool)
    (pos : Nat) (fs : List Nat) :
    ∃ k, parseIPv4Fields (decimal a ++ rest) first prevDot 0 pos 0 fs
      = parseIPv4Fields rest false false a pos k fs := by
  unfold decimal
  by_cases h1 : a < 10
  · refine ⟨1, ?_⟩
    have e1 : 48 + a - 48 = a := by omega
    have c1 : 48 + a ≤ 57 := by omega
    have c2 : ¬ (a > 255) := by omega
    simp [h1, parseIPv4Fields, e1, c1, c2]
  · by_cases h2 : a < 100
    · refine ⟨2, ?_⟩
      have e1 : 48 + a / 10 - 48 = a / 10 := by omega
      have e2 : 48 + a % 10 - 48 = a % 10 := by omega
      have c1 : 48 + a / 10 ≤ 57 := by omega
      have c2 : 48 + a % 10 ≤ 57 := by omega
      have c3 : ¬ (a / 10 > 255) := by omega
      have c4 : ¬ (a / 10 = 0) := by omega
      have c5 : a / 10 * 10 + a % 10 = a := by omega
      have c6 : ¬ (a > 255) := by omega
      simp [h1, h2, parseIPv4Fields, e1, e2, c1, c2, c3, c4, c5, c6]
    · refine ⟨3, ?_⟩
      have e1 : 48 + a / 100 - 48 = a / 100 := by omega
      have e2 : 48 + a / 10 % 10 - 48 = a / 10 % 10 := by omega
      have e3 : 48 + a % 10 - 48 = a % 10 := by omega
      have c1 : 48 + a / 100 ≤ 57 := by omega
      have c2 : 48 + a / 10 % 10 ≤ 57 := by omega
      have c3 : 48 + a % 10 ≤ 57 := by omega
      have c4 : ¬ (a / 100 > 255) := by omega
      have c5 : ¬ (a / 100 = 0) := by omega
      have c6 : a / 100 * 10 + a / 10 % 10 = a / 10 := by omega
      have c7 : ¬ (a / 10 > 255) := by omega
      have c8 : a / 10 * 10 + a % 10 = a := by omega
      have c9 : ¬ (a > 255) := by omega
      simp [h1, h2, parseIPv4Fields, e1, e2, e3, c1, c2, c3, c4, c5, c6, c7, c8, c9]

theorem decimal_ne_nil (a : Nat) : decimal a ≠ [] := by
  unfold decimal
  split
  · simp
  · split <;> simp

theorem parseIPv4Fields_dot (rest : Bytes) (hr : rest ≠ []) (val pos k : Nat) (hp : pos < 3)
    (fs : List Nat) :
    parseIPv4Fields (46 :: rest) false false val pos k fs
      = parseIPv4Fields rest false true 0 (pos + 1) 0 (fs ++ [val % 256]) := by
  have : pos ≠ 3 := by omega
  simp [parseIPv4Fields, hr, this]

theorem parseIPv4_dotted (a b c d : Nat) (ha : a < 256) (hb : b < 256) (hc : c < 256)
    (hd : d < 256) : parseIPv4 (dotted a b c d) = some [a, b, c, d] := by
  have ne : ∀ (x : Nat) (t : Bytes), decimal x ++ t ≠ [] := by
    intro x t h
    exact decimal_ne_nil x (List.append_eq_nil.mp h).1
  unfold parseIPv4 dotted
  simp only [List.append_assoc, List.singleton_append, List.cons_append, List.nil_append]
  obtain ⟨k1, e1⟩ := parseIPv4Fields_decimal a ha
    (46 :: (decimal b ++ 46 :: (decimal c ++ 46 :: decimal d))) true false 0 []
  rw [e1, parseIPv4Fields_dot _ (ne _ _) _ _ _ (by omega)]
  obtain ⟨k2, e2⟩ := parseIPv4Fields_decimal b hb
    (46 :: (decimal c ++ 46 :: decimal d)) false true 1 ([] ++ [a % 256])
  rw [e2, parseIPv4Fields_dot _ (ne _ _) _ _ _ (by omega)]
  obtain ⟨k3, e3⟩ := parseIPv4Fields_decimal c hc
    (46 :: decimal d) false true 2 ([] ++ [a % 256] ++ [b % 256])
  rw [e3, parseIPv4Fields_dot _ (decimal_ne_nil d) _ _ _ (by omega)]
  obtain ⟨k4, e4⟩ := parseIPv4Fields_decimal d hd [] false true 3
    ([] ++ [a % 256] ++ [b % 256] ++ [c % 256])
  rw [List.append_nil] at e4
  rw [e4]
  simp [parseIPv4Fields, Nat.mod_eq_of_lt ha, Nat.mod_eq_of_lt hb, Nat.mod_eq_of_lt hc,
    Nat.mod_eq_of_lt hd]

theorem parseAddr16_decimal (whole : Bytes) (a : Nat) (ha : a < 256) (rest : Bytes) :
    parseAddr16 whole (decimal a ++ 46 :: rest) = (parseIPv4 whole).map v4InV6 := by
  unfold decimal
  by_cases h1 : a < 10
  · have c1 : ¬ (48 + a = 46) := by omega
    have c2 : ¬ (48 + a = 58) := by omega
    have c3 : ¬ (48 + a = 37) := by omega
    simp [h1, parseAddr16, c1, c2, c3]
  · by_cases h2 : a < 100
    · have c1 : ¬ (48 + a / 10 = 46) := by omega
      have c2 : ¬ (48 + a / 10 = 58) := by omega
      have c3 : ¬ (48 + a / 10 = 37) := by omega
      have c4 : ¬ (48 + a % 10 = 46) := by omega
      have c5 : ¬ (48 + a % 10 = 58) := by omega
      have c6 : ¬ (48 + a % 10 = 37) := by omega
      simp [h1, h2, parseAddr16, c1, c2, c3, c4, c5, c6]
    · have c1 : ¬ (48 + a / 100 = 46) := by omega
      have c2 : ¬ (48 + a / 100 = 58) := by omega
      have c3 : ¬ (48 + a / 100 = 37) := by omega
      have c4 : ¬ (48 + a / 10 % 10 = 46) := by omega
      have c5 : ¬ (48 + a / 10 % 10 = 58) := by omega
      have c6 : ¬ (48 + a / 10 % 10 = 37) := by omega
      have c7 : ¬ (48 + a % 10 = 46) := by omega
      have c8 : ¬ (48 + a % 10 = 58) := by omega
      have c9 : ¬ (48 + a % 10 = 37) := by omega
      simp [h1, h2, parseAddr16, c1, c2, c3, c4, c5, c6, c7, c8, c9]

theorem rdata_dotted (a b c d : Nat) (ha : a < 256) (hb : b < 256) (hc : c < 256)
    (hd : d < 256) : rdata (dotted a b c d) = [a, b, c, d] := by
  have hp : parseIP (dotted a b c d) = some (v4InV6 [a, b, c, d]) := by
    unfold parseIP
    have : dotted a b c d = decimal a ++ 46 :: (decimal b ++ [46] ++ decimal c ++ [46] ++ decimal d) := by
      simp [dotted]
    rw [this, parseAddr16_decimal _ a ha, ← this, parseIPv4_dotted a b c d ha hb hc hd]
    rfl
  simp [rdata, hp, to4, v4InV6]

/-- C1: for a name made of non-empty dot-free labels of at most 255 bytes joined by dots, with
or without one trailing dot, and the address `a.b.c.d`, the packet is the 12 fixed header
bytes, every label preceded by its length byte, 00, the ten bytes 00 01 00 01 00 00 00 3c
00 04, and the bytes `a b c d`. -/
theorem buildFakeMDNSResponse_layout (labels : List Bytes) (trailingDot : Bool)
    (a b c d : Nat) (hne : labels ≠ [])
    (hl : ∀ l ∈ labels, l ≠ [] ∧ l.length ≤ 255 ∧ 46 ∉ l)
    (ha : a < 256) (hb : b < 256) (hc : c < 256) (hd : d < 256) :
    buildFakeMDNSResponse (dot.intercalate labels ++ (if trailingDot then dot else []))
        (dotted a b c d)
      = [0x00, 0x00, 0x84, 0x00, 0x00, 0x00, 0x00, 0x01, 0x00, 0x00, 0x00, 0x00]
        ++ lengthPrefixed labels ++ [0x00]
        ++ [0x00, 0x01, 0x00, 0x01, 0x00, 0x00, 0x00, 0x3c, 0x00, 0x04] ++ [a, b, c, d] := by
  have hsplit : (dot.intercalate labels).splitOn 46 = labels :=
    List.splitOn_intercalate labels 46 (fun l h => (hl l h).2.2) hne
  have hlab : encodeLabels (labels.takeWhile nonEmpty) = lengthPrefixed labels := by
    rw [takeWhile_nonEmpty_all labels (fun l h => (hl l h).1)]
    exact encodeLabels_eq_lengthPrefixed labels (fun l h => (hl l h).2.1)
  have hplain : buildFakeMDNSResponse (dot.intercalate labels) (dotted a b c d)
      = header ++ lengthPrefixed labels ++ [0x00] ++ fixedFields ++ [a, b, c, d] := by
    simp only [buildFakeMDNSResponse, writeLabels_eq, dot, split_single]
    rw [show ([46] : List Nat).intercalate labels = dot.intercalate labels from rfl,
      hsplit, hlab, rdata_dotted a b c d ha hb hc hd]
  have hdot : buildFakeMDNSResponse (dot.intercalate labels ++ dot) (dotted a b c d)
      = buildFakeMDNSResponse (dot.intercalate labels) (dotted a b c d) := by
    simp only [buildFakeMDNSResponse, writeLabels_eq, dot, split_single, splitOn_append_sep,
      takeWhile_nonEmpty_append_nil]
  cases trailingDot with
  | false => simpa [header, fixedFields] using hplain
  | true =>
    simp only [if_true]
    rw [hdot, hplain]
    simp [header, fixedFields]

/-- Instance of C1: `foo.local` and `192.168.1.42`. -/
theorem buildFakeMDNSResponse_layout_witness :
    buildFakeMDNSResponse fooLocal ip42
      = [0x00, 0x00, 0x84, 0x00, 0x00, 0x00, 0x00, 0x01, 0x00, 0x00, 0x00, 0x00]
        ++ [3, 102, 111, 111, 5, 108, 111, 99, 97, 108] ++ [0x00]
        ++ [0x00, 0x01, 0x00, 0x01, 0x00, 0x00, 0x00, 0x3c, 0x00, 0x04] ++ [192, 168, 1, 42] :=
  buildFakeMDNSResponse_layout [[102, 111, 111], [108, 111, 99, 97, 108]] false 192 168 1 42
    (by decide) (by decide) (by decide) (by decide) (by decide) (by decide)

/-! ## `extractName` returns -/

theorem genSplit_ne_nil (sep : Bytes) (n : Nat) (s : Bytes) : genSplit sep n s ≠ [] := by
  cases n with
  | zero => simp [genSplit]
  | succ n =>
    unfold genSplit
    split <;> simp

theorem lastElem_eq_getLast? (xs : List Bytes) : lastElem xs = xs.getLast? := by
  unfold lastElem
  by_cases h : xs.length = 0
  · have : xs = [] := List.eq_nil_of_length_eq_zero h
    simp [this]
  · simp [h, List.getLast?_eq_getElem?]

theorem lastElem_of_ne_nil (xs : List Bytes) (h : xs ≠ []) :
    lastElem xs = some (xs.getLast?.getD []) := by
  rw [lastElem_eq_getLast?]
  cases hx : xs.getLast? with
  | none => exact absurd (List.getLast?_eq_none_iff.mp hx) h
  | some x => rfl

theorem index_nil (sep : Bytes) (h : sep ≠ []) : index sep [] = none := by
  cases sep with
  | nil => exact absurd rfl h
  | cons c t => simp [index, hasPrefix]

theorem split_dotLocal_head (data : Bytes) :
    (split data dotLocal).get? 0 = some (beforeDotLocal data) := by
  unfold split beforeDotLocal
  cases data with
  | nil => simp [genSplit, index_nil dotLocal (by decide)]
  | cons c t =>
    simp only [List.length_cons, genSplit]
    cases index dotLocal (c :: t) <;> simp

theorem extractName_eq (data : Bytes) :
    extractName data = some (((fields (((split (trimSpace (beforeDotLocal data))
      newline).getLast?).getD [])).getLast?).getD []) := by
  unfold extractName
  have h0 : (split data dotLocal).length ≠ 0 := by
    intro h
    exact genSplit_ne_nil _ _ _ (List.eq_nil_of_length_eq_zero h)
  simp only [h0, if_false, split_dotLocal_head]
  have hl : split (trimSpace (beforeDotLocal data)) newline ≠ [] := genSplit_ne_nil _ _ _
  rw [lastElem_of_ne_nil _ hl]
  simp only []
  by_cases hf : (fields (((split (trimSpace (beforeDotLocal data))
      newline).getLast?).getD [])).length = 0
  · have : fields (((split (trimSpace (beforeDotLocal data)) newline).getLast?).getD []) = [] :=
      List.eq_nil_of_length_eq_zero hf
    simp [this]
  · rw [if_neg hf, lastElem_of_ne_nil]
    intro h
    exact hf (by simp [h])

/-! ## `bytes.Contains` on a truncated packet -/

theorem hasPrefix_take (p : Bytes) : ∀ (s : Bytes) (n : Nat),
    hasPrefix (s.take n) p = true → hasPrefix s p = true := by
  induction p with
  | nil => intro s n _; cases s <;> rfl
  | cons d p ih =>
    intro s n h
    cases s with
    | nil => simp [hasPrefix] at h
    | cons c s =>
      cases n with
      | zero => simp [hasPrefix] at h
      | succ n =>
        simp only [List.take_succ_cons, hasPrefix, Bool.and_eq_true] at h ⊢
        exact ⟨h.1, ih s n h.2⟩

theorem index_isSome_take (sep : Bytes) : ∀ (s : Bytes) (n : Nat),
    (index sep (s.take n)).isSome = true → (index sep s).isSome = true := by
  intro s
  induction s with
  | nil => intro n h; simpa using h
  | cons c s ih =>
    intro n h
    cases n with
    | zero =>
      simp only [List.take_zero, index] at h
      have hp : hasPrefix [] sep = true := by
        by_contra hc
        simp [hc] at h
      have : hasPrefix (c :: s) sep = true := hasPrefix_take sep (c :: s) 0 hp
      simp [index, this]
    | succ n =>
      simp only [List.take_succ_cons, index] at h ⊢
      by_cases hp : hasPrefix (c :: s.take n) sep = true
      · have : hasPrefix (c :: s) sep = true := hasPrefix_take sep (c :: s) (n + 1) hp
        simp [this]
      · simp only [hp, if_false, Bool.false_eq_true] at h
        have h1 : (index sep (s.take n)).isSome = true := by
          cases hi : index sep (s.take n) with
          | none => simp [hi] at h
          | some m => rfl
        have h2 := ih n h1
        by_cases hq : hasPrefix (c :: s) sep = true
        · simp [hq]
        · simp only [hq, if_false, Bool.false_eq_true]
          cases hi : index sep s with
          | none => simp [hi] at h2
          | some m => rfl

theorem contains_take_false (s sep : Bytes) (n : Nat) (h : contains s sep = false) :
    contains (s.take n) sep = false := by
  unfold contains at h ⊢
  cases hi : (index sep (s.take n)).isSome with
  | false => rfl
  | true =>
    have := index_isSome_take sep s n hi
    simp [this] at h

/-! ## One iteration of the responder loop -/

/-- C8: a datagram without `.local` (in the datagram, or in the bytes read into the buffer)
makes the iteration do nothing: no effect at all, hence no send and no cache read, and the
cache is the one it was, whatever it holds. -/
theorem loopIteration_no_dotLocal (cache : Cache) (now : Int) (payload : Bytes) (src : UDPAddr)
    (h : contains payload dotLocal = false ∨ contains (payload.take 1024) dotLocal = false) :
    loopIteration cache now (Recv.datagram payload src) = some (cache, []) := by
  have h1 : contains (payload.take 1024) dotLocal = false := by
    rcases h with h | h
    · exact contains_take_false payload dotLocal 1024 h
    · exact h
  simp [loopIteration, h1]

/-- Instance of C8: the packet `"foo"` with `foo` cached. -/
theorem loopIteration_no_dotLocal_witness :
    loopIteration fooCache 5 (Recv.datagram fooName querier) = some (fooCache, []) :=
  loopIteration_no_dotLocal fooCache 5 fooName querier (Or.inl (by decide))

/-- C7: when the name extracted from the received bytes has no cache entry, or an entry whose
`expiresAt` is past, the iteration completes and sends no datagram. -/
theorem loopIteration_miss (cache : Cache) (now : Int) (payload : Bytes) (src : UDPAddr)
    (h : ∀ name, extractName (payload.take 1024) = some name →
      cache name = none ∨ ∃ e, cache name = some (some e) ∧ e.expiresAt < now) :
    ∃ effs, loopIteration cache now (Recv.datagram payload src) = some (cache, effs)
      ∧ sent effs = [] := by
  unfold loopIteration
  by_cases hc : contains (payload.take 1024) dotLocal = true
  · simp only [hc, Bool.not_true, Bool.false_eq_true, if_false]
    have hx := extractName_eq (payload.take 1024)
    have hn := h _ hx
    rw [hx]
    simp only []
    split
    · exact ⟨[], rfl, rfl⟩
    · have hg : getCachedIP cache now (((fields (((split (trimSpace (beforeDotLocal
          (payload.take 1024))) newline).getLast?).getD [])).getLast?).getD []) = some [] := by
        rcases hn with hn | ⟨e, he, hlt⟩
        · simp [getCachedIP, hn]
        · have : now > e.expiresAt := hlt
          simp [getCachedIP, he, this]
      rw [hg]
      exact ⟨_, rfl, rfl⟩
  · simp only [hc, Bool.not_false, if_true]
    exact ⟨[], by simp [hc], rfl⟩

/-- Instance of C7: a query for `bar`, which is not cached, and a query for `foo` at instant
500, after the entry's `expiresAt`. -/
theorem loopIteration_miss_witness :
    (∃ effs, loopIteration fooCache 5 (Recv.datagram barQuery querier) = some (fooCache, effs)
      ∧ sent effs = [])
    ∧ (∃ effs, loopIteration fooCache 500 (Recv.datagram fooQuery querier)
        = some (fooCache, effs) ∧ sent effs = []) :=
  ⟨loopIteration_miss fooCache 5 barQuery querier (by
      intro name hname
      have hb : extractName (barQuery.take 1024) = some [98, 97, 114] := by decide
      rw [hb] at hname
      cases hname
      exact Or.inl (by decide)),
   loopIteration_miss fooCache 500 fooQuery querier (by
      intro name hname
      have hb : extractName (fooQuery.take 1024) = some fooName := by decide
      rw [hb] at hname
      cases hname
      exact Or.inr ⟨⟨ip42, 300⟩, by decide, by decide⟩)⟩

/-! ## Facts about UTF-8 decoding -/

theorem leadInfo_some {s0 sz lo hi : Nat} (h : leadInfo s0 = some (sz, lo, hi)) :
    0xC2 ≤ s0 ∧ 2 ≤ sz ∧ sz ≤ 4 ∧ 0x80 ≤ lo ∧ hi ≤ 0xBF := by
  unfold leadInfo at h
  split_ifs at h <;> simp at h <;> omega

/-- The outcomes of `decodeRune` on a non-empty string. -/
theorem decodeRune_cases (s0 : Nat) (t : Bytes) :
    (leadInfo s0 = none ∧ decodeRune (s0 :: t) = (if s0 < 0x80 then s0 else runeError, 1))
    ∨ (0xC2 ≤ s0 ∧ decodeRune (s0 :: t) = (runeError, 1))
    ∨ (∃ sz lo hi s1 t1, leadInfo s0 = some (sz, lo, hi) ∧ sz = 2 ∧ t = s1 :: t1
        ∧ lo ≤ s1 ∧ s1 ≤ hi
        ∧ decodeRune (s0 :: t) = (s0 % 32 * 64 + s1 % 64, 2))
    ∨ (∃ sz lo hi s1 s2 t2, leadInfo s0 = some (sz, lo, hi) ∧ sz = 3 ∧ t = s1 :: s2 :: t2
        ∧ lo ≤ s1 ∧ s1 ≤ hi ∧ 0x80 ≤ s2 ∧ s2 ≤ 0xBF
        ∧ decodeRune (s0 :: t) = (s0 % 16 * 4096 + s1 % 64 * 64 + s2 % 64, 3))
    ∨ (∃ sz lo hi s1 s2 s3 t3, leadInfo s0 = some (sz, lo, hi) ∧ sz = 4
        ∧ t = s1 :: s2 :: s3 :: t3
        ∧ lo ≤ s1 ∧ s1 ≤ hi ∧ 0x80 ≤ s2 ∧ s2 ≤ 0xBF ∧ 0x80 ≤ s3 ∧ s3 ≤ 0xBF
        ∧ decodeRune (s0 :: t)
          = (s0 % 8 * 262144 + s1 % 64 * 4096 + s2 % 64 * 64 + s3 % 64, 4)) := by
  cases hl : leadInfo s0 with
  | none => left; simp [decodeRune, hl]
  | some p =>
    obtain ⟨sz, lo, hi⟩ := p
    have hb := leadInfo_some hl
    by_cases hlen : t.length + 1 < sz
    · exact Or.inr (Or.inl ⟨hb.1, by simp [decodeRune, hl, hlen]⟩)
    · cases t with
      | nil => exact Or.inr (Or.inl ⟨hb.1, by simp [decodeRune, hl]⟩)
      | cons s1 t1 =>
        by_cases h1 : s1 < lo ∨ hi < s1
        · exact Or.inr (Or.inl ⟨hb.1, by simp [decodeRune, hl, hlen, h1]⟩)
        · by_cases hs2 : sz ≤ 2
          · refine Or.inr (Or.inr (Or.inl ⟨sz, lo, hi, s1, t1, rfl, by omega, rfl, by omega,
              by omega, ?_⟩))
            simp only [decodeRune, hl, hlen, h1, hs2, if_false, if_true]
          · cases t1 with
            | nil => simp at hlen; omega
            | cons s2 t2 =>
              by_cases h2 : s2 < 0x80 ∨ 0xBF < s2
              · exact Or.inr (Or.inl ⟨hb.1, by
                  simp only [decodeRune, hl, hlen, h1, hs2, h2, if_false, if_true]⟩)
              · by_cases hs3 : sz ≤ 3
                · refine Or.inr (Or.inr (Or.inr (Or.inl ⟨sz, lo, hi, s1, s2, t2, rfl, by omega,
                    rfl, by omega, by omega, by omega, by omega, ?_⟩)))
                  simp only [decodeRune, hl, hlen, h1, hs2, h2, hs3, if_false, if_true]
                · cases t2 with
                  | nil => simp at hlen; omega
                  | cons s3 t3 =>
                    by_cases h3 : s3 < 0x80 ∨ 0xBF < s3
                    · exact Or.inr (Or.inl ⟨hb.1, by
                        simp only [decodeRune, hl, hlen, h1, hs2, h2, hs3, h3, if_false,
                          if_true]⟩)
                    · refine Or.inr (Or.inr (Or.inr (Or.inr ⟨sz, lo, hi, s1, s2, s3, t3, rfl,
                        by omega, rfl, by omega, by omega, by omega, by omega, by omega,
                        by omega, ?_⟩)))
                      simp only [decodeRune, hl, hlen, h1, hs2, h2, hs3, h3, if_false, if_true]

theorem decodeRune_two {s0 lo hi s1 : Nat} (hl : leadInfo s0 = some (2, lo, hi))
    (h1 : lo ≤ s1) (h2 : s1 ≤ hi) (t : Bytes) :
    decodeRune (s0 :: s1 :: t) = (s0 % 32 * 64 + s1 % 64, 2) := by
  have a1 : ¬ (s1 < lo ∨ hi < s1) := by omega
  simp [decodeRune, hl, a1]

theorem decodeRune_three {s0 lo hi s1 s2 : Nat} (hl : leadInfo s0 = some (3, lo, hi))
    (h1 : lo ≤ s1) (h2 : s1 ≤ hi) (h3 : 0x80 ≤ s2) (h4 : s2 ≤ 0xBF) (t : Bytes) :
    decodeRune (s0 :: s1 :: s2 :: t) = (s0 % 16 * 4096 + s1 % 64 * 64 + s2 % 64, 3) := by
  have a1 : ¬ (s1 < lo ∨ hi < s1) := by omega
  have a2 : ¬ (s2 < 0x80 ∨ 0xBF < s2) := by omega
  simp [decodeRune, hl, a1, a2]

theorem decodeRune_four {s0 lo hi s1 s2 s3 : Nat} (hl : leadInfo s0 = some (4, lo, hi))
    (h1 : lo ≤ s1) (h2 : s1 ≤ hi) (h3 : 0x80 ≤ s2) (h4 : s2 ≤ 0xBF) (h5 : 0x80 ≤ s3)
    (h6 : s3 ≤ 0xBF) (t : Bytes) :
    decodeRune (s0 :: s1 :: s2 :: s3 :: t)
      = (s0 % 8 * 262144 + s1 % 64 * 4096 + s2 % 64 * 64 + s3 % 64, 4) := by
  have a1 : ¬ (s1 < lo ∨ hi < s1) := by omega
  have a2 : ¬ (s2 < 0x80 ∨ 0xBF < s2) := by omega
  have a3 : ¬ (s3 < 0x80 ∨ 0xBF < s3) := by omega
  simp [decodeRune, hl, a1, a2, a3]

theorem isSpace_runeError : isSpace runeError = false := by decide

theorem decodeRune_width (s0 : Nat) (t : Bytes) :
    1 ≤ (decodeRune (s0 :: t)).2 ∧ (decodeRune (s0 :: t)).2 ≤ (s0 :: t).length := by
  rcases decodeRune_cases s0 t with ⟨_, h⟩ | ⟨_, h⟩ | ⟨sz, lo, hi, s1, t1, _, _, ht, _, _, h⟩
    | ⟨sz, lo, hi, s1, s2, t2, _, _, ht, _, _, _, _, h⟩
    | ⟨sz, lo, hi, s1, s2, s3, t3, _, _, ht, _, _, _, _, _, _, h⟩
  · rw [h]; simp
  · rw [h]; simp
  · rw [h]; simp [ht]
  · rw [h]; simp [ht]
  · rw [h]; simp [ht]

theorem decodeRune_cont (c : Nat) (t : Bytes) (h1 : 0x80 ≤ c) (h2 : c ≤ 0xBF) :
    decodeRune (c :: t) = (runeError, 1) := by
  have hl : leadInfo c = none := by
    unfold leadInfo
    split_ifs <;> first | rfl | omega
  have : ¬ c < 0x80 := by omega
  simp [decodeRune, hl, this]

/-- A white-space rune is decoded from its own bytes only. -/
theorem decodeRune_append_of_space (w t : Bytes) (h : isSpace (decodeRune w).1 = true) :
    decodeRune (w ++ t) = decodeRune w := by
  cases w with
  | nil => simp [decodeRune, isSpace_runeError] at h
  | cons s0 t0 =>
    rcases decodeRune_cases s0 t0 with ⟨hl, _⟩ | ⟨_, h'⟩
      | ⟨sz, lo, hi, s1, t1, hl, hsz, ht, h1, h2, h'⟩
      | ⟨sz, lo, hi, s1, s2, t2, hl, hsz, ht, h1, h2, h3, h4, h'⟩
      | ⟨sz, lo, hi, s1, s2, s3, t3, hl, hsz, ht, h1, h2, h3, h4, h5, h6, h'⟩
    · simp [decodeRune, hl]
    · rw [h'] at h
      simp [isSpace_runeError] at h
    · subst ht hsz
      rw [List.cons_append, List.cons_append, decodeRune_two hl h1 h2, decodeRune_two hl h1 h2]
    · subst ht hsz
      simp only [List.cons_append]
      rw [decodeRune_three hl h1 h2 h3 h4, decodeRune_three hl h1 h2 h3 h4]
    · subst ht hsz
      simp only [List.cons_append]
      rw [decodeRune_four hl h1 h2 h3 h4 h5 h6, decodeRune_four hl h1 h2 h3 h4 h5 h6]

theorem startsRune_of_space (w : Bytes) (h : isSpace (decodeRune w).1 = true) :
    startsRune w = true := by
  cases w with
  | nil => rfl
  | cons c t =>
    by_cases hc : 0x80 ≤ c ∧ c ≤ 0xBF
    · rw [decodeRune_cont c t hc.1 hc.2] at h
      simp [isSpace_runeError] at h
    · simp only [startsRune, runeStart]
      simp
      omega

set_option maxHeartbeats 4000000 in
/-- Decoding at a position of `u` does not look past a following rune start. -/
theorem decodeRune_append_of_startsRune (s0 : Nat) (u t : Bytes) (ht : startsRune t = true) :
    decodeRune (s0 :: u ++ t) = decodeRune (s0 :: u) := by
  cases hl : leadInfo s0 with
  | none => simp [decodeRune, hl]
  | some p =>
    obtain ⟨sz, lo, hi⟩ := p
    have hb := leadInfo_some hl
    have key : ∀ c t', t = c :: t' → c < 0x80 ∨ 0xBF < c := by
      intro c t' e
      subst e
      simp [startsRune, runeStart] at ht
      omega
    have hsz : sz = 2 ∨ sz = 3 ∨ sz = 4 := by omega
    rcases u with _ | ⟨s1, _ | ⟨s2, _ | ⟨s3, u3⟩⟩⟩ <;> rcases t with _ | ⟨c, t'⟩ <;>
      (try have hc := key c t' rfl) <;>
      rcases hsz with rfl | rfl | rfl <;>
      simp only [List.cons_append, List.nil_append, List.append_nil, decodeRune, hl,
        List.length_cons, List.length_nil, List.length_append] <;>
      (try split_ifs) <;> first | rfl | omega

theorem containsSpace_head (s : Bytes) (h : containsSpace s = false) :
    isSpace (decodeRune s).1 = false := by
  cases s with
  | nil => exact isSpace_runeError
  | cons c t =>
    simp only [containsSpace, Bool.or_eq_false_iff] at h
    exact h.1

theorem containsSpace_drop (k : Nat) : ∀ s : Bytes, containsSpace s = false →
    containsSpace (s.drop k) = false := by
  induction k with
  | zero => intro s h; simpa using h
  | succ k ih =>
    intro s h
    cases s with
    | nil => simpa using h
    | cons c t =>
      simp only [containsSpace, Bool.or_eq_false_iff] at h
      simpa using ih t h.2

theorem decodeRune_width_le (s : Bytes) (hs : s ≠ []) :
    1 ≤ (decodeRune s).2 ∧ (decodeRune s).2 ≤ s.length := by
  cases s with
  | nil => exact absurd rfl hs
  | cons c t => exact decodeRune_width c t

theorem fieldsLoop_noSpace : ∀ (fuel : Nat) (s x : Bytes), containsSpace s = false →
    s.length ≤ fuel → fieldsLoop fuel s (some x) = [x ++ s] := by
  intro fuel
  induction fuel with
  | zero =>
    intro s x _ hl
    have : s = [] := List.eq_nil_of_length_eq_zero (by omega)
    subst this
    simp [fieldsLoop]
  | succ fuel ih =>
    intro s x hs hl
    by_cases he : s = []
    · subst he
      simp [fieldsLoop]
    · have hw := decodeRune_width_le s he
      have hh := containsSpace_head s hs
      simp only [fieldsLoop, he, if_false, hh, Bool.false_eq_true, Option.getD_some]
      rw [ih _ _ (containsSpace_drop _ s hs) (by simp; omega)]
      simp [List.append_assoc]

theorem fieldsLoop_noSpace_none (fuel : Nat) (s : Bytes) (hs : containsSpace s = false)
    (he : s ≠ []) (hl : s.length ≤ fuel) : fieldsLoop fuel s none = [s] := by
  cases fuel with
  | zero =>
    have : s = [] := List.eq_nil_of_length_eq_zero (by omega)
    exact absurd this he
  | succ fuel =>
    have hw := decodeRune_width_le s he
    have hh := containsSpace_head s hs
    simp only [fieldsLoop, he, if_false, hh, Bool.false_eq_true, Option.getD_none,
      List.nil_append]
    rw [fieldsLoop_noSpace _ _ _ (containsSpace_drop _ s hs) (by simp; omega)]
    simp

theorem decodeRune_append_startsRune (u t : Bytes) (hu : u ≠ []) (ht : startsRune t = true) :
    decodeRune (u ++ t) = decodeRune u := by
  cases u with
  | nil => exact absurd rfl hu
  | cons c u' => exact decodeRune_append_of_startsRune c u' t ht

theorem fieldsLoop_reach (t : Bytes) (ht : startsRune t = true) : ∀ (fuel : Nat) (u : Bytes)
    (cur : Option Bytes), u.length + t.length ≤ fuel →
    ∃ fs fuel' cur', t.length ≤ fuel' ∧
      fieldsLoop fuel (u ++ t) cur = fs ++ fieldsLoop fuel' t cur' := by
  intro fuel
  induction fuel with
  | zero =>
    intro u cur hl
    have : u = [] := List.eq_nil_of_length_eq_zero (by omega)
    subst this
    exact ⟨[], 0, cur, by omega, by simp⟩
  | succ fuel ih =>
    intro u cur hl
    by_cases hu : u = []
    · subst hu
      exact ⟨[], fuel + 1, cur, by simpa using hl, by simp⟩
    · have hd := decodeRune_append_startsRune u t hu ht
      have hw := decodeRune_width_le u hu
      have hne : u ++ t ≠ [] := by simp [hu]
      have hdrop : (u ++ t).drop (decodeRune u).2 = u.drop (decodeRune u).2 ++ t :=
        List.drop_append_of_le_length hw.2
      simp only [fieldsLoop, hne, if_false, hd, hdrop]
      split
      · obtain ⟨fs, fuel', cur', h1, h2⟩ := ih (u.drop (decodeRune u).2) none (by simp; omega)
        exact ⟨cur.toList ++ fs, fuel', cur', h1, by rw [h2, List.append_assoc]⟩
      · exact ih (u.drop (decodeRune u).2) _ (by simp; omega)

theorem isSpaceChar_spec (w : Bytes) (hw : isSpaceChar w = true) :
    isSpace (decodeRune w).1 = true ∧ (decodeRune w).2 = w.length ∧ w ≠ [] := by
  simp only [isSpaceChar, Bool.and_eq_true, beq_iff_eq] at hw
  refine ⟨hw.1, hw.2, ?_⟩
  intro h
  subst h
  simp [decodeRune, isSpace_runeError] at hw

theorem fields_last (w token u : Bytes) (hw : isSpaceChar w = true)
    (ht : containsSpace token = false) (hne : token ≠ []) :
    (fields (u ++ (w ++ token))).getLast? = some token := by
  obtain ⟨hs, hlen, hwn⟩ := isSpaceChar_spec w hw
  have hsr : startsRune (w ++ token) = true :=
    startsRune_of_space _ (by rw [decodeRune_append_of_space w token hs]; exact hs)
  obtain ⟨fs, fuel', cur', h1, h2⟩ :=
    fieldsLoop_reach (w ++ token) hsr (u ++ (w ++ token)).length u none (by simp)
  unfold fields
  rw [h2]
  cases fuel' with
  | zero =>
    simp at h1
    exact absurd h1.1 hwn
  | succ f =>
    have hne2 : w ++ token ≠ [] := by simp [hwn]
    simp only [fieldsLoop, hne2, if_false, decodeRune_append_of_space w token hs, hs, if_true,
      hlen, List.drop_left]
    have hwl : 0 < w.length := List.length_pos.mpr hwn
    rw [fieldsLoop_noSpace_none f token ht hne (by simp at h1; omega)]
    simp

theorem fields_token (token : Bytes) (ht : containsSpace token = false) (hne : token ≠ []) :
    (fields token).getLast? = some token := by
  unfold fields
  rw [fieldsLoop_noSpace_none _ token ht hne (Nat.le_refl _)]
  rfl

theorem trimLeft_of_not_space (fuel : Nat) (s : Bytes)
    (h : isSpace (decodeRune s).1 = false) : trimLeft fuel s = s := by
  cases fuel with
  | zero => rfl
  | succ fuel =>
    by_cases he : s = []
    · subst he; rfl
    · simp [trimLeft, he, h]

theorem trimLeft_reach (t : Bytes) (ht : startsRune t = true) : ∀ (fuel : Nat) (u : Bytes),
    u.length + t.length ≤ fuel →
    ∃ u' fuel', t.length ≤ fuel' ∧
      (trimLeft fuel (u ++ t) = u' ++ t ∨ trimLeft fuel (u ++ t) = trimLeft fuel' t) := by
  intro fuel
  induction fuel with
  | zero =>
    intro u hl
    exact ⟨u, 0, by omega, Or.inl rfl⟩
  | succ fuel ih =>
    intro u hl
    by_cases hu : u = []
    · subst hu
      exact ⟨[], fuel + 1, by simpa using hl, Or.inr (by simp)⟩
    · have hd := decodeRune_append_startsRune u t hu ht
      have hw := decodeRune_width_le u hu
      have hne : u ++ t ≠ [] := by simp [hu]
      have hdrop : (u ++ t).drop (decodeRune u).2 = u.drop (decodeRune u).2 ++ t :=
        List.drop_append_of_le_length hw.2
      simp only [trimLeft, hne, if_false, hd, hdrop]
      split
      · exact ih (u.drop (decodeRune u).2) (by simp; omega)
      · exact ⟨u, t.length, Nat.le_refl _, Or.inl rfl⟩

theorem trimLeft_good (w token pre : Bytes) (hw : isSpaceChar w = true)
    (ht : containsSpace token = false) :
    trimLeft (pre ++ (w ++ token)).length (pre ++ (w ++ token)) = token
    ∨ ∃ u, trimLeft (pre ++ (w ++ token)).length (pre ++ (w ++ token)) = u ++ (w ++ token) := by
  obtain ⟨hs, hlen, hwn⟩ := isSpaceChar_spec w hw
  have hsr : startsRune (w ++ token) = true :=
    startsRune_of_space _ (by rw [decodeRune_append_of_space w token hs]; exact hs)
  obtain ⟨u', fuel', h1, h2 | h2⟩ :=
    trimLeft_reach (w ++ token) hsr (pre ++ (w ++ token)).length pre (by simp)
  · exact Or.inr ⟨u', h2⟩
  · left
    rw [h2]
    cases fuel' with
    | zero =>
      simp at h1
      exact absurd h1.1 hwn
    | succ f =>
      have hne2 : w ++ token ≠ [] := by simp [hwn]
      simp only [trimLeft, hne2, if_false, decodeRune_append_of_space w token hs, hs, if_true,
        hlen, List.drop_left]
      exact trimLeft_of_not_space f token (containsSpace_head token ht)

/-- What `decodeLastRune` returns is an error of width 1 or the rune decoded at some offset
and ending at the end of the string. -/
theorem decodeLastRune_cases (s : Bytes) (hs : s ≠ []) :
    decodeLastRune s = (runeError, 1)
    ∨ ∃ i, decodeRune (s.drop i) = decodeLastRune s ∧ i + (decodeLastRune s).2 = s.length := by
  have hlen : s.length ≠ 0 := fun h => hs (List.eq_nil_of_length_eq_zero h)
  unfold decodeLastRune
  simp only [hlen, if_false]
  have hd : s.drop (s.length - 1) = [s.getD (s.length - 1) 0] := by
    have hlt : s.length - 1 < s.length := by omega
    rw [List.drop_eq_getElem_cons hlt]
    have e1 : s.length - 1 + 1 = s.length := by omega
    rw [e1, List.drop_length]
    simp [List.getD_eq_getElem?_getD, List.getElem?_eq_getElem hlt]
  generalize s.getD (s.length - 1) 0 = c at hd
  by_cases hr : c < 0x80
  · right
    refine ⟨s.length - 1, ?_, ?_⟩
    · simp only [hr, if_true]
      rw [hd]
      have hl : leadInfo c = none := by
        unfold leadInfo
        split_ifs <;> first | rfl | omega
      simp [decodeRune, hl, hr]
    · simp only [hr, if_true]
      omega
  · simp only [hr, if_false]
    generalize lastRuneStart s (if (s.length : Int) - 4 < 0 then 0 else (s.length : Int) - 4) 4
      ((s.length : Int) - 2) = st
    by_cases hst : st < 0
    · simp only [hst, if_true]
      split
      · left; rfl
      · rename_i hh
        right
        refine ⟨0, rfl, ?_⟩
        simp only [Int.toNat_zero, List.drop_zero, ne_eq, not_not] at hh ⊢
        omega
    · simp only [hst, if_false]
      split
      · left; rfl
      · rename_i hh
        right
        refine ⟨st.toNat, rfl, ?_⟩
        simp only [ne_eq, not_not] at hh
        omega

/-- A proper non-empty suffix of the encoding of a white-space character begins with a
continuation byte, so nothing is decoded from it. -/
theorem isSpaceChar_suffix (w : Bytes) (hw : isSpaceChar w = true) (c' e x : Bytes)
    (hsplit : w = c' ++ e) (hc : c' ≠ []) (he : e ≠ []) :
    isSpace (decodeRune (e ++ x)).1 = false := by
  obtain ⟨hs, hlen, _⟩ := isSpaceChar_spec w hw
  have hcont : ∀ (c : Nat) (t : Bytes), 0x80 ≤ c → c ≤ 0xBF →
      isSpace (decodeRune (c :: t ++ x)).1 = false := by
    intro c t h1 h2
    rw [List.cons_append, decodeRune_cont c _ h1 h2]
    exact isSpace_runeError
  cases w with
  | nil => simp at hsplit; exact absurd hsplit.1 hc
  | cons s0 t0 =>
    cases c' with
    | nil => exact absurd rfl hc
    | cons d c'' =>
      simp only [List.cons_append, List.cons.injEq] at hsplit
      obtain ⟨_, ht0⟩ := hsplit
      rcases decodeRune_cases s0 t0 with ⟨_, h'⟩ | ⟨_, h'⟩
        | ⟨sz, lo, hi, s1, t1, hl, hsz, ht, h1, h2, h'⟩
        | ⟨sz, lo, hi, s1, s2, t2, hl, hsz, ht, h1, h2, h3, h4, h'⟩
        | ⟨sz, lo, hi, s1, s2, s3, t3, hl, hsz, ht, h1, h2, h3, h4, h5, h6, h'⟩
      · rw [h'] at hlen
        simp at hlen
        subst hlen
        simp at ht0
        exact absurd ht0.2 he
      · rw [h'] at hs
        simp [isSpace_runeError] at hs
      · have hb := leadInfo_some hl
        rw [h'] at hlen
        subst ht
        simp at hlen
        subst hlen
        rcases c'' with _ | ⟨a, c3⟩
        · simp at ht0
          subst ht0
          exact hcont s1 [] (by omega) (by omega)
        · simp at ht0
          exact absurd ht0.2.2 he
      · have hb := leadInfo_some hl
        rw [h'] at hlen
        subst ht
        simp at hlen
        subst hlen
        rcases c'' with _ | ⟨a, _ | ⟨b, c3⟩⟩
        · simp at ht0
          subst ht0
          exact hcont s1 [s2] (by omega) (by omega)
        · simp at ht0
          obtain ⟨_, rfl⟩ := ht0
          exact hcont s2 [] h3 h4
        · simp at ht0
          exact absurd ht0.2.2.2 he
      · have hb := leadInfo_some hl
        rw [h'] at hlen
        subst ht
        simp at hlen
        subst hlen
        rcases c'' with _ | ⟨a, _ | ⟨b, _ | ⟨c, c3⟩⟩⟩
        · simp at ht0
          subst ht0
          exact hcont s1 [s2, s3] (by omega) (by omega)
        · simp at ht0
          obtain ⟨_, rfl⟩ := ht0
          exact hcont s2 [s3] h3 h4
        · simp at ht0
          obtain ⟨_, _, rfl⟩ := ht0
          exact hcont s3 [] h5 h6
        · simp at ht0
          exact absurd ht0.2.2.2.2 he
theorem containsSpace_suffix (e b : Bytes) (h : containsSpace (e ++ b) = false) :
    isSpace (decodeRune b).1 = false := by
  have := containsSpace_drop e.length (e ++ b) h
  rw [List.drop_left] at this
  exact containsSpace_head b this

/-- In `token` or `u ++ w ++ token` a white-space rune never ends at the end of the string. -/
theorem space_inside (w token : Bytes) (hw : isSpaceChar w = true)
    (ht : containsSpace token = false) (hne : token ≠ []) (S : Bytes)
    (hS : S = token ∨ ∃ u, S = u ++ (w ++ token)) (a b : Bytes) (hab : a ++ b = S)
    (hsp : isSpace (decodeRune b).1 = true) : (decodeRune b).2 < b.length := by
  obtain ⟨hs, hlen, hwn⟩ := isSpaceChar_spec w hw
  have htl : 0 < token.length := List.length_pos.mpr hne
  have hwl : 0 < w.length := List.length_pos.mpr hwn
  have hsr : startsRune (w ++ token) = true :=
    startsRune_of_space _ (by rw [decodeRune_append_of_space w token hs]; exact hs)
  have hwt : ∀ b : Bytes, b = w ++ token → (decodeRune b).2 < b.length := by
    intro b hb
    subst hb
    rw [decodeRune_append_of_space w token hs, hlen]
    simp
    omega
  rcases hS with hS | ⟨u, hS⟩
  · subst hS
    have := containsSpace_suffix a b (by rw [hab]; exact ht)
    rw [this] at hsp
    exact absurd hsp (by simp)
  · subst hS
    rcases List.append_eq_append_iff.mp hab with ⟨a', _, hb⟩ | ⟨c', _, hb⟩
    · by_cases ha' : a' = []
      · subst ha'
        exact hwt b (by simpa using hb)
      · subst hb
        rw [decodeRune_append_startsRune a' _ ha' hsr]
        have := (decodeRune_width_le a' ha').2
        simp
        omega
    · rcases List.append_eq_append_iff.mp hb with ⟨a'', _, htk⟩ | ⟨c'', hw', hb'⟩
      · have := containsSpace_suffix a'' b (by rw [← htk]; exact ht)
        rw [this] at hsp
        exact absurd hsp (by simp)
      · by_cases hc' : c' = []
        · subst hc'
          apply hwt b
          simp at hw'
          subst hw'
          exact hb'
        · by_cases hc'' : c'' = []
          · subst hc''
            simp at hb'
            subst hb'
            have := containsSpace_head b ht
            rw [this] at hsp
            exact absurd hsp (by simp)
          · subst hb'
            have := isSpaceChar_suffix w hw c' c'' token hw' hc' hc''
            rw [this] at hsp
            exact absurd hsp (by simp)

theorem decodeLastRune_good (w token : Bytes) (hw : isSpaceChar w = true)
    (ht : containsSpace token = false) (hne : token ≠ []) (S : Bytes)
    (hS : S = token ∨ ∃ u, S = u ++ (w ++ token)) :
    isSpace (decodeLastRune S).1 = false := by
  have hSne : S ≠ [] := by
    rcases hS with h | ⟨u, h⟩ <;> subst h <;> simp [hne]
  rcases decodeLastRune_cases S hSne with h | ⟨i, h1, h2⟩
  · rw [h]; exact isSpace_runeError
  · by_contra hc
    have hsp : isSpace (decodeRune (S.drop i)).1 = true := by
      rw [h1]; simpa using hc
    have := space_inside w token hw ht hne S hS (S.take i) (S.drop i)
      (List.take_append_drop i S) hsp
    rw [h1] at this
    simp at this
    omega

theorem trimRight_of_not_space (s : Bytes) (hs : s ≠ [])
    (h : isSpace (decodeLastRune s).1 = false) : trimRight s = s := by
  unfold trimRight
  have hl : 0 < s.length := List.length_pos.mpr hs
  obtain ⟨n, hn⟩ : ∃ n, s.length = n + 1 := ⟨s.length - 1, by omega⟩
  have hidx : lastIndexFunc s.length s = some (s.length - (decodeLastRune s).2) := by
    rw [hn]
    simp only [lastIndexFunc, hs, if_false, h, Bool.false_eq_true]
    rw [hn]
  rw [hidx]
  simp only []
  rcases decodeLastRune_cases s hs with hc | ⟨i, h1, h2⟩
  · rw [hc]
    simp only []
    have hdne : s.drop (s.length - 1) ≠ [] := by
      simp
      omega
    have hw := (decodeRune_width_le _ hdne).1
    split
    · exact List.take_of_length_le (by omega)
    · exact List.take_of_length_le (by omega)
  · have hi : s.length - (decodeLastRune s).2 = i := by omega
    rw [hi]
    split
    · rw [h1, h2]
      exact List.take_length s
    · rename_i hlt
      apply List.take_of_length_le
      by_cases hd : s.drop i = []
      · simp at hd
        omega
      · have hilt : i < s.length := by
          by_contra hge
          exact hd (List.drop_of_length_le (by omega))
        have hcons : s.drop i = s.getD i 0 :: s.drop (i + 1) := by
          rw [List.drop_eq_getElem_cons hilt]
          simp [List.getD_eq_getElem?_getD, List.getElem?_eq_getElem hilt]
        generalize s.getD i 0 = c at hcons hlt
        have hlead : leadInfo c = none := by
          unfold leadInfo
          split_ifs <;> first | rfl | omega
        have : (decodeRune (s.drop i)).2 = 1 := by
          rw [hcons]
          simp [decodeRune, hlead]
        rw [h1] at this
        omega

theorem mem_of_append_singleton_eq (c : Nat) (x y z : Bytes) (h : x ++ [c] = y ++ z)
    (hz : z ≠ []) : c ∈ z := by
  have hr := congrArg List.reverse h
  simp only [List.reverse_append, List.reverse_cons, List.reverse_nil, List.nil_append,
    List.singleton_append] at hr
  cases hzr : z.reverse with
  | nil => exact absurd (List.reverse_eq_nil_iff.mp hzr) hz
  | cons d r =>
    rw [hzr] at hr
    simp only [List.cons_append, List.cons.injEq] at hr
    have : d ∈ z.reverse := by rw [hzr]; simp
    rw [← hr.1] at this
    exact List.mem_reverse.mp this

theorem exists_last_occurrence (c : Nat) : ∀ s : Bytes, c ∈ s →
    ∃ a b, s = a ++ c :: b ∧ c ∉ b := by
  intro s
  induction s with
  | nil => intro h; simp at h
  | cons x s ih =>
    intro h
    by_cases hs : c ∈ s
    · obtain ⟨a, b, e, hb⟩ := ih hs
      exact ⟨x :: a, b, by simp [e], hb⟩
    · have hx : c = x := by
        rcases List.mem_cons.mp h with h | h
        · exact h
        · exact absurd h hs
      exact ⟨[], s, by simp [hx], hs⟩

theorem splitOn_decomp (c : Nat) (b : Bytes) (hb : c ∉ b) : ∀ a : Bytes,
    ∃ front, front ≠ [] ∧ (a ++ c :: b).splitOn c = front ++ [b] := by
  have hbs : b.splitOn c = [b] := by
    apply List.splitOnP_eq_single
    intro x hx
    simp
    intro hxc
    exact hb (hxc ▸ hx)
  intro a
  induction a with
  | nil =>
    refine ⟨[[]], by simp, ?_⟩
    simp only [List.nil_append, List.splitOn, List.splitOnP_cons, beq_self_eq_true, if_true]
    simp only [List.splitOn] at hbs
    rw [hbs]
    rfl
  | cons x a ih =>
    obtain ⟨front, hne, e⟩ := ih
    simp only [List.splitOn] at e ⊢
    simp only [List.cons_append, List.splitOnP_cons, e]
    by_cases hx : (x == c) = true
    · simp only [hx, if_true]
      exact ⟨[] :: front, by simp, by simp⟩
    · simp only [hx, if_false, Bool.false_eq_true]
      cases front with
      | nil => exact absurd rfl hne
      | cons f fs => exact ⟨(x :: f) :: fs, by simp, by simp [List.modifyHead]⟩

theorem lastLine_of_not_mem (s : Bytes) (h : 10 ∉ s) :
    ((split s newline).getLast?).getD [] = s := by
  have : s.splitOn 10 = [s] := by
    apply List.splitOnP_eq_single
    intro x hx
    simp
    intro hxc
    exact h (hxc ▸ hx)
  simp [newline, split_single, this]

theorem lastLine_of_decomp (a b : Bytes) (h : 10 ∉ b) :
    ((split (a ++ 10 :: b) newline).getLast?).getD [] = b := by
  obtain ⟨front, _, e⟩ := splitOn_decomp 10 b h a
  simp [newline, split_single, e]

theorem not_mem_newline_of_noSpace : ∀ s : Bytes, containsSpace s = false → 10 ∉ s := by
  intro s
  induction s with
  | nil => intro _; simp
  | cons c t ih =>
    intro h
    simp only [containsSpace, Bool.or_eq_false_iff] at h
    intro hm
    rcases List.mem_cons.mp hm with hc | hc
    · subst hc
      have : decodeRune (10 :: t) = (10, 1) := by
        have hl : leadInfo 10 = none := by decide
        simp [decodeRune, hl]
      rw [this] at h
      exact absurd h.1 (by decide)
    · exact ih h.2 hc

theorem isSpaceChar_newline (w : Bytes) (hw : isSpaceChar w = true) (h : 10 ∈ w) :
    w = [10] := by
  obtain ⟨hs, hlen, _⟩ := isSpaceChar_spec w hw
  cases w with
  | nil => simp at h
  | cons s0 t0 =>
    rcases decodeRune_cases s0 t0 with ⟨_, h'⟩ | ⟨_, h'⟩
      | ⟨sz, lo, hi, s1, t1, hl, hsz, ht, h1, h2, h'⟩
      | ⟨sz, lo, hi, s1, s2, t2, hl, hsz, ht, h1, h2, h3, h4, h'⟩
      | ⟨sz, lo, hi, s1, s2, s3, t3, hl, hsz, ht, h1, h2, h3, h4, h5, h6, h'⟩
    · rw [h'] at hlen
      simp at hlen
      subst hlen
      simp at h
      simp [h]
    · rw [h'] at hs
      simp [isSpace_runeError] at hs
    · have hb := leadInfo_some hl
      rw [h'] at hlen
      subst ht
      simp at hlen
      subst hlen
      simp at h
      omega
    · have hb := leadInfo_some hl
      rw [h'] at hlen
      subst ht
      simp at hlen
      subst hlen
      simp at h
      omega
    · have hb := leadInfo_some hl
      rw [h'] at hlen
      subst ht
      simp at hlen
      subst hlen
      simp at h
      omega

theorem lastLine_good (w token : Bytes) (hw : isSpaceChar w = true)
    (ht : containsSpace token = false) (S : Bytes)
    (hS : S = token ∨ ∃ u, S = u ++ (w ++ token)) :
    ((split S newline).getLast?).getD [] = token
    ∨ ∃ u, ((split S newline).getLast?).getD [] = u ++ (w ++ token) := by
  have hnt := not_mem_newline_of_noSpace token ht
  by_cases hmem : 10 ∈ S
  · obtain ⟨a, b, e, hb⟩ := exists_last_occurrence 10 S hmem
    rw [e, lastLine_of_decomp a b hb]
    rcases hS with hS | ⟨u, hS⟩
    · rw [hS] at hmem
      exact absurd hmem hnt
    · have e2 : (u ++ w) ++ token = (a ++ [10]) ++ b := by
        rw [List.append_assoc, ← hS, e]
        simp
      rcases List.append_eq_append_iff.mp e2 with ⟨a', h1, h2⟩ | ⟨c', h1, h2⟩
      · by_cases ha' : a' = []
        · subst ha'
          left
          simpa using h2.symm
        · have : 10 ∈ a' := mem_of_append_singleton_eq 10 a (u ++ w) a' h1 ha'
          exact absurd (by rw [h2]; simp [this]) hnt
      · rcases List.append_eq_append_iff.mp h1 with ⟨a', h3, h4⟩ | ⟨c'', _, h4⟩
        · by_cases ha' : a' = []
          · subst ha'
            right
            refine ⟨[], ?_⟩
            simp at h4
            rw [h2, h4]
            simp
          · have hm : 10 ∈ a' := mem_of_append_singleton_eq 10 a u a' h3 ha'
            have hw10 : w = [10] := isSpaceChar_newline w hw (by rw [h4]; simp [hm])
            left
            rw [hw10] at h4
            have hc' : c' = [] := by
              cases a' with
              | nil => exact absurd rfl ha'
              | cons d r =>
                simp at h4
                exact h4.2.2
            rw [h2, hc']
            simp
        · right
          exact ⟨c'', by rw [h2, h4, List.append_assoc]⟩
  · rw [lastLine_of_not_mem S hmem]
    exact hS

theorem hasPrefix_append_dotLocal (P rest : Bytes) (hP : P ≠ [])
    (h : hasPrefix P dotLocal = false) : hasPrefix (P ++ (dotLocal ++ rest)) dotLocal = false := by
  rcases P with _ | ⟨a, _ | ⟨b, _ | ⟨c, _ | ⟨d, _ | ⟨e, _ | ⟨f, P'⟩⟩⟩⟩⟩⟩
  · exact absurd rfl hP
  all_goals simp_all [hasPrefix, dotLocal]

theorem index_append_dotLocal (rest : Bytes) : ∀ P : Bytes, index dotLocal P = none →
    index dotLocal (P ++ (dotLocal ++ rest)) = some P.length := by
  intro P
  induction P with
  | nil =>
    intro _
    simp [index, hasPrefix, dotLocal]
  | cons c P ih =>
    intro h
    simp only [index] at h
    by_cases hp : hasPrefix (c :: P) dotLocal = true
    · simp [hp] at h
    · simp only [hp, if_false, Bool.false_eq_true, Option.map_eq_none'] at h
      have hp' : hasPrefix (c :: P ++ (dotLocal ++ rest)) dotLocal = false :=
        hasPrefix_append_dotLocal (c :: P) rest (by simp) (by simpa using hp)
      rw [List.cons_append] at hp' ⊢
      simp only [index, hp', if_false, Bool.false_eq_true, ih h]
      simp

theorem beforeDotLocal_append (P rest : Bytes) (h : contains P dotLocal = false) :
    beforeDotLocal (P ++ (dotLocal ++ rest)) = P := by
  have hi : index dotLocal P = none := by
    unfold contains at h
    cases hx : index dotLocal P with
    | none => rfl
    | some m => simp [hx] at h
  simp [beforeDotLocal, index_append_dotLocal rest P hi]

theorem extractName_of_token (pre w token rest : Bytes) (hw : isSpaceChar w = true)
    (hne : token ≠ []) (ht : containsSpace token = false)
    (hnl : contains (pre ++ w ++ token) dotLocal = false) :
    extractName (pre ++ w ++ token ++ dotLocal ++ rest) = some token := by
  have e1 : pre ++ w ++ token ++ dotLocal ++ rest = (pre ++ (w ++ token)) ++ (dotLocal ++ rest) := by
    simp [List.append_assoc]
  have e2 : pre ++ w ++ token = pre ++ (w ++ token) := by simp [List.append_assoc]
  rw [e2] at hnl
  rw [e1, extractName_eq, beforeDotLocal_append _ rest hnl]
  have hL := trimLeft_good w token pre hw ht
  have hLne : trimLeft (pre ++ (w ++ token)).length (pre ++ (w ++ token)) ≠ [] := by
    rcases hL with h | ⟨u, h⟩ <;> rw [h] <;> simp [hne]
  have hT : trimSpace (pre ++ (w ++ token))
      = trimLeft (pre ++ (w ++ token)).length (pre ++ (w ++ token)) := by
    unfold trimSpace
    exact trimRight_of_not_space _ hLne (decodeLastRune_good w token hw ht hne _ hL)
  rw [hT]
  rcases lastLine_good w token hw ht _ hL with h | ⟨u, h⟩
  · rw [h, fields_token token ht hne]
    rfl
  · rw [h, fields_last w token u hw ht hne]
    rfl

/-- C4: in a packet `prefix ++ w ++ token ++ ".local" ++ rest` with `w` one white-space
character, `token` non-empty and free of white space, and no `.local` inside
`prefix ++ w ++ token`, `extractName` returns `token`. -/
theorem extractName_token (pre w token rest : Bytes) (hw : isSpaceChar w = true)
    (hne : token ≠ []) (ht : containsSpace token = false)
    (hnl : contains (pre ++ w ++ token) dotLocal = false) :
    extractName (pre ++ w ++ token ++ dotLocal ++ rest) = some token :=
  extractName_of_token pre w token rest hw hne ht hnl

/-- Instance of C4: the bytes `"...query foo.local..."` yield `foo`. -/
theorem extractName_token_witness :
    extractName ([46, 46, 46, 113, 117, 101, 114, 121] ++ [32] ++ fooName ++ dotLocal
      ++ [46, 46, 46]) = some fooName :=
  extractName_token [46, 46, 46, 113, 117, 101, 114, 121] [32] fooName [46, 46, 46]
    (by decide) (by decide) (by decide) (by decide)

/-- C6 fails as stated: (1) the packet `"foo"` yields the cached name `foo` but has no
`.local`, and nothing is sent; (2) the packet `" .local"` yields the empty name, cached under
the empty key, and nothing is sent; (3) the packet `" a..b.local"` yields the cached name
`a..b`, and the datagram sent is not the layout of the labels of `a..b.local`. -/
theorem loopIteration_hit_counterexample :
    (fooCache fooName = some (some ⟨ip42, 300⟩) ∧ ip42 = dotted 192 168 1 42
      ∧ extractName (fooName.take 1024) = some fooName
      ∧ (loopIteration fooCache 5 (Recv.datagram fooName querier)).map (fun r => sent r.2)
          = some [])
    ∧ (emptyKeyCache [] = some (some ⟨ip42, 300⟩)
      ∧ extractName (([32] ++ dotLocal).take 1024) = some []
      ∧ (loopIteration emptyKeyCache 5 (Recv.datagram ([32] ++ dotLocal) querier)).map
          (fun r => sent r.2) = some [])
    ∧ (abCache abName = some (some ⟨ip42, 300⟩)
      ∧ extractName (([32] ++ abName ++ dotLocal).take 1024) = some abName
      ∧ (loopIteration abCache 5 (Recv.datagram ([32] ++ abName ++ dotLocal) querier)).map
          (fun r => sent r.2)
        ≠ some [(layout (split (abName ++ dotLocal) dot) 192 168 1 42, querier)]) := by
  decide

theorem dotted_ne_nil (a b c d : Nat) : dotted a b c d ≠ [] := by
  unfold dotted
  intro h
  simp [decimal_ne_nil] at h

/-- C6 amended: when the cache holds, under a non-empty name, an entry that is not expired
and whose address is `a.b.c.d`, and the received bytes contain `.local` and `extractName`
yields that name from them, the iteration sends exactly one datagram, to the packet's source:
the header, the labels of `<name>.local` that precede the first empty label, each preceded by
its length byte (the length modulo 256), 00, the fixed fields and the bytes `a b c d`. When
all labels of `<name>.local` are non-empty and at most 255 bytes long this is the section 4.2
layout of those labels. -/
theorem loopIteration_hit (cache : Cache) (now : Int) (name : Bytes) (e : CacheEntry)
    (payload : Bytes) (src : UDPAddr) (a b c d : Nat)
    (hc : cache name = some (some e)) (hexp : ¬ now > e.expiresAt)
    (hip : e.ip = dotted a b c d) (ha : a < 256) (hb : b < 256) (hc' : c < 256) (hd : d < 256)
    (hn : name ≠ []) (hcon : contains (payload.take 1024) dotLocal = true)
    (hx : extractName (payload.take 1024) = some name) :
    (∃ effs, loopIteration cache now (Recv.datagram payload src) = some (cache, effs)
      ∧ sent effs =
        [([0x00, 0x00, 0x84, 0x00, 0x00, 0x00, 0x00, 0x01, 0x00, 0x00, 0x00, 0x00]
          ++ encodeLabels ((split (name ++ dotLocal) dot).takeWhile nonEmpty) ++ [0x00]
          ++ [0x00, 0x01, 0x00, 0x01, 0x00, 0x00, 0x00, 0x3c, 0x00, 0x04] ++ [a, b, c, d],
          src)])
    ∧ ((∀ l ∈ split (name ++ dotLocal) dot, l ≠ [] ∧ l.length ≤ 255) →
        ∃ effs, loopIteration cache now (Recv.datagram payload src) = some (cache, effs)
          ∧ sent effs = [(layout (split (name ++ dotLocal) dot) a b c d, src)]) := by
  have hg : getCachedIP cache now name = some e.ip := by
    simp [getCachedIP, hc, hexp]
  have hne : e.ip ≠ [] := by rw [hip]; exact dotted_ne_nil a b c d
  have hbuild : buildFakeMDNSResponse (name ++ dotLocal ++ dot) e.ip
      = [0x00, 0x00, 0x84, 0x00, 0x00, 0x00, 0x00, 0x01, 0x00, 0x00, 0x00, 0x00]
          ++ encodeLabels ((split (name ++ dotLocal) dot).takeWhile nonEmpty) ++ [0x00]
          ++ [0x00, 0x01, 0x00, 0x01, 0x00, 0x00, 0x00, 0x3c, 0x00, 0x04] ++ [a, b, c, d] := by
    rw [buildFakeMDNSResponse_append_dot, buildFakeMDNSResponse_eq_encode, hip,
      rdata_dotted a b c d ha hb hc' hd]
    rfl
  have hrun : loopIteration cache now (Recv.datagram payload src)
      = some (cache, [Effect.cacheRead name,
          Effect.writeToUDP (buildFakeMDNSResponse (name ++ dotLocal ++ dot) e.ip) src]) := by
    simp [loopIteration, hcon, hx, hn, hg, hne]
  refine ⟨⟨_, hrun, ?_⟩, ?_⟩
  · simp only [sent, hbuild]
  · intro hl
    refine ⟨_, hrun, ?_⟩
    simp only [sent, hbuild, layout]
    rw [takeWhile_nonEmpty_all _ (fun l h => (hl l h).1),
      encodeLabels_eq_lengthPrefixed _ (fun l h => (hl l h).2)]

/-- Instance of C6 amended: the cache `foo -> 192.168.1.42` and the packet `" foo.local"`. -/
theorem loopIteration_hit_witness :
    (∃ effs, loopIteration fooCache 5 (Recv.datagram fooQuery querier) = some (fooCache, effs)
      ∧ sent effs =
        [([0x00, 0x00, 0x84, 0x00, 0x00, 0x00, 0x00, 0x01, 0x00, 0x00, 0x00, 0x00]
          ++ encodeLabels ((split (fooName ++ dotLocal) dot).takeWhile nonEmpty) ++ [0x00]
          ++ [0x00, 0x01, 0x00, 0x01, 0x00, 0x00, 0x00, 0x3c, 0x00, 0x04] ++ [192, 168, 1, 42],
          querier)])
    ∧ ∃ effs, loopIteration fooCache 5 (Recv.datagram fooQuery querier) = some (fooCache, effs)
        ∧ sent effs = [(layout [[102, 111, 111], [108, 111, 99, 97, 108]] 192 168 1 42,
            querier)] :=
  have h := loopIteration_hit fooCache 5 fooName ⟨ip42, 300⟩ fooQuery querier 192 168 1 42
    (by decide) (by decide) (by decide) (by decide) (by decide) (by decide) (by decide)
    (by decide) (by decide) (by decide)
  ⟨h.1, h.2 (by decide)⟩

theorem lengthPrefixed_length_ge (labels : List Bytes) :
    labels.length ≤ (lengthPrefixed labels).length := by
  induction labels with
  | nil => simp [lengthPrefixed]
  | cons l ls ih => simp [lengthPrefixed]; omega

theorem lengthPrefixed_cons (l : Bytes) (ls : List Bytes) :
    lengthPrefixed (l :: ls) = l.length :: (l ++ lengthPrefixed ls) := by
  simp [lengthPrefixed]

theorem decodeName_lengthPrefixed (rest : Bytes) : ∀ (labels : List Bytes) (fuel : Nat),
    (∀ l ∈ labels, 1 ≤ l.length ∧ l.length ≤ 63) → labels.length < fuel →
    decodeName fuel (lengthPrefixed labels ++ 0 :: rest) = some (labels, rest) := by
  intro labels
  induction labels with
  | nil =>
    intro fuel _ hf
    obtain ⟨f, rfl⟩ : ∃ f, fuel = f + 1 := ⟨fuel - 1, by omega⟩
    simp [lengthPrefixed, decodeName]
  | cons l ls ih =>
    intro fuel hl hf
    obtain ⟨f, rfl⟩ : ∃ f, fuel = f + 1 := ⟨fuel - 1, by omega⟩
    have h1 := hl l (by simp)
    have c1 : ¬ l.length = 0 := by omega
    have c2 : ¬ l.length > 63 := by omega
    have ih' := ih f (fun l' hl' => hl l' (by simp [hl'])) (by simpa using hf)
    rw [lengthPrefixed_cons, List.cons_append, List.append_assoc]
    simp only [decodeName, c1, c2, if_false]
    have c3 : ¬ (l ++ (lengthPrefixed ls ++ 0 :: rest)).length < l.length := by
      simp
    rw [if_neg c3, List.drop_left, ih', List.take_left]

theorem decodeRecord_lengthPrefixed (labels : List Bytes)
    (hl : ∀ l ∈ labels, 1 ≤ l.length ∧ l.length ≤ 63)
    (t0 t1 c0 c1 l0 l1 l2 l3 r0 r1 : Nat) (rest : Bytes) (hr : r0 * 256 + r1 ≤ rest.length) :
    decodeRecord (lengthPrefixed labels
        ++ 0 :: t0 :: t1 :: c0 :: c1 :: l0 :: l1 :: l2 :: l3 :: r0 :: r1 :: rest)
      = some (⟨labels, t0 * 256 + t1, c0 * 256 + c1, ((l0 * 256 + l1) * 256 + l2) * 256 + l3,
          rest.take (r0 * 256 + r1)⟩, rest.drop (r0 * 256 + r1)) := by
  unfold decodeRecord
  rw [decodeName_lengthPrefixed _ labels _ hl (by
    have := lengthPrefixed_length_ge labels
    simp
    omega)]
  have : ¬ rest.length < r0 * 256 + r1 := by omega
  simp only [this, if_false]

theorem buildFakeMDNSResponse_intercalate (labels : List Bytes) (a b c d : Nat)
    (hne : labels ≠ []) (hl : ∀ l ∈ labels, l ≠ [] ∧ l.length ≤ 255 ∧ 46 ∉ l)
    (ha : a < 256) (hb : b < 256) (hc : c < 256) (hd : d < 256) :
    buildFakeMDNSResponse (dot.intercalate labels) (dotted a b c d)
      = header ++ lengthPrefixed labels ++ [0x00] ++ fixedFields ++ [a, b, c, d] := by
  have hsplit : (dot.intercalate labels).splitOn 46 = labels :=
    List.splitOn_intercalate labels 46 (fun l h => (hl l h).2.2) hne
  have hlab : encodeLabels (labels.takeWhile nonEmpty) = lengthPrefixed labels := by
    rw [takeWhile_nonEmpty_all labels (fun l h => (hl l h).1)]
    exact encodeLabels_eq_lengthPrefixed labels (fun l h => (hl l h).2.1)
  rw [buildFakeMDNSResponse_eq_encode]
  simp only [dot, split_single]
  rw [show ([46] : List Nat).intercalate labels = dot.intercalate labels from rfl,
    hsplit, hlab, rdata_dotted a b c d ha hb hc hd]

/-- C11: for a name made of non-empty dot-free labels of 1 to 63 bytes joined by dots and the
address `a.b.c.d`, the reference decoder reads the whole packet and finds no question and
exactly one answer: that label sequence as owner, type A, class IN, TTL 60, RDATA
`a b c d`. -/
theorem decodeMessage_buildFakeMDNSResponse (labels : List Bytes) (a b c d : Nat)
    (hne : labels ≠ []) (hl : ∀ l ∈ labels, 1 ≤ l.length ∧ l.length ≤ 63 ∧ 46 ∉ l)
    (ha : a < 256) (hb : b < 256) (hc : c < 256) (hd : d < 256) :
    decodeMessage (buildFakeMDNSResponse (dot.intercalate labels) (dotted a b c d))
      = some (⟨0, 0x8400, [], [⟨labels, 1, 1, 60, [a, b, c, d]⟩], [], []⟩, []) := by
  have hl' : ∀ l ∈ labels, l ≠ [] ∧ l.length ≤ 255 ∧ 46 ∉ l := by
    intro l h
    have := hl l h
    refine ⟨?_, by omega, this.2.2⟩
    intro e
    rw [e] at this
    simp at this
  rw [buildFakeMDNSResponse_intercalate labels a b c d hne hl' ha hb hc hd]
  have e : header ++ lengthPrefixed labels ++ [0x00] ++ fixedFields ++ [a, b, c, d]
      = 0x00 :: 0x00 :: 0x84 :: 0x00 :: 0x00 :: 0x00 :: 0x00 :: 0x01 :: 0x00 :: 0x00 :: 0x00
        :: 0x00 :: (lengthPrefixed labels
          ++ 0 :: 0 :: 1 :: 0 :: 1 :: 0 :: 0 :: 0 :: 60 :: 0 :: 4 :: [a, b, c, d]) := by
    simp [header, fixedFields]
  rw [e]
  simp only [decodeMessage, decodeQuestions, decodeRecords]
  rw [decodeRecord_lengthPrefixed labels (fun l h => ⟨(hl l h).1, (hl l h).2.1⟩) 0 1 0 1 0 0 0 60
    0 4 [a, b, c, d] (by simp)]
  simp

/-- Instance of C11: `foo.local` and `192.168.1.42`. -/
theorem decodeMessage_buildFakeMDNSResponse_witness :
    decodeMessage (buildFakeMDNSResponse fooLocal ip42)
      = some (⟨0, 0x8400, [], [⟨[[102, 111, 111], [108, 111, 99, 97, 108]], 1, 1, 60,
          [192, 168, 1, 42]⟩], [], []⟩, []) :=
  decodeMessage_buildFakeMDNSResponse [[102, 111, 111], [108, 111, 99, 97, 108]] 192 168 1 42
    (by decide) (by decide) (by decide) (by decide) (by decide) (by decide)

theorem refreshLoop_frame (resolve : Nat → Bytes → Option (List Bytes)) (clock : Nat → Int)
    (key : Bytes) : ∀ (names : List Bytes) (k : Nat) (c : Cache),
    (∀ j, names.get? j = some key → fails resolve (k + j) key) →
    refreshLoop resolve clock names k c key = c key := by
  intro names
  induction names with
  | nil => intro k c _; rfl
  | cons loc rest ih =>
    intro k c h
    have hrest : ∀ c1 : Cache, refreshLoop resolve clock rest (k + 1) c1 key = c1 key := by
      intro c1
      apply ih
      intro j hj
      have := h (j + 1) (by simpa using hj)
      rwa [show k + 1 + j = k + (j + 1) by omega]
    unfold refreshLoop
    cases hres : resolve k (trimSuffix loc dotLocal ++ dotLan) with
    | none => exact hrest c
    | some ips =>
      cases ips with
      | nil => exact hrest c
      | cons ip0 more =>
        simp only []
        rw [hrest]
        by_cases hk : key = loc
        · subst hk
          have := h 0 (by simp)
          simp only [fails, Nat.add_zero, hres] at this
          simp at this
        · simp [update, hk]

theorem refreshLoop_success (resolve : Nat → Bytes → Option (List Bytes)) (clock : Nat → Int)
    (key ip : Bytes) (more : List Bytes) : ∀ (names : List Bytes) (k : Nat) (c : Cache) (i : Nat),
    names.get? i = some key →
    resolve (k + i) (trimSuffix key dotLocal ++ dotLan) = some (ip :: more) →
    (∀ j, i < j → names.get? j = some key → fails resolve (k + j) key) →
    refreshLoop resolve clock names k c key = some (some ⟨ip, clock (k + i) + fiveMinutes⟩) := by
  intro names
  induction names with
  | nil => intro k c i hi; simp at hi
  | cons loc rest ih =>
    intro k c i hi hres hlast
    cases i with
    | zero =>
      simp at hi
      subst hi
      simp only [Nat.add_zero] at hres
      simp only [refreshLoop, hres]
      rw [refreshLoop_frame resolve clock loc rest (k + 1) _ (by
        intro j hj
        have := hlast (j + 1) (by omega) (by simpa using hj)
        rwa [show k + 1 + j = k + (j + 1) by omega])]
      simp [update]
    | succ i =>
      have hrest : ∀ c1 : Cache, refreshLoop resolve clock rest (k + 1) c1 key
          = some (some ⟨ip, clock (k + (i + 1)) + fiveMinutes⟩) := by
        intro c1
        have := ih (k + 1) c1 i (by simpa using hi)
          (by rwa [show k + 1 + i = k + (i + 1) by omega])
          (by
            intro j hj hget
            have := hlast (j + 1) (by omega) (by simpa using hget)
            rwa [show k + 1 + j = k + (j + 1) by omega])
        rwa [show k + 1 + i = k + (i + 1) by omega] at this
      unfold refreshLoop
      cases resolve k (trimSuffix loc dotLocal ++ dotLan) with
      | none => exact hrest c
      | some ips =>
        cases ips with
        | nil => exact hrest c
        | cons ip0 more1 => exact hrest _

/-- The lifetime `5 * time.Minute` is 300000000000 nanoseconds. -/
theorem fiveMinutes_eq : fiveMinutes = 300000000000 := by
  unfold fiveMinutes
  norm_num

/-- C12: when the resolution at list position `i` succeeds for `names[i]` with a non-empty
result and no later occurrence of that name resolves, the entry under that name after the pass
is the first address returned at `i` with `expiresAt` exactly 300000000000 ns (five minutes)
after the clock reading at `i`, whatever the cache held before. -/
theorem refreshCache_overwrites (names : List Bytes)
    (resolve : Nat → Bytes → Option (List Bytes)) (clock : Nat → Int) (cache : Cache)
    (i : Nat) (name ip : Bytes) (more : List Bytes)
    (hi : names.get? i = some name)
    (hres : resolve i (trimSuffix name dotLocal ++ dotLan) = some (ip :: more))
    (hlast : ∀ j, i < j → names.get? j = some name → fails resolve j name) :
    refreshCache names resolve clock cache name
      = some (some ⟨ip, clock i + 300000000000⟩) := by
  have := refreshLoop_success resolve clock name ip more names 0 cache i hi
    (by simpa using hres) (by intro j hj hg; simpa using hlast j hj hg)
  rw [fiveMinutes_eq] at this
  simpa [refreshCache] using this

/-- Instance of C12: `foo.local` occurs at positions 0 and 2 and resolves at both; the entry
is the one written at position 2, at clock reading 1002, so it expires at instant
300000001002. -/
theorem refreshCache_overwrites_witness :
    refreshCache sampleNames sampleResolve sampleClock barCache fooLocal
      = some (some ⟨ip42, 300000001002⟩) :=
  refreshCache_overwrites sampleNames sampleResolve sampleClock barCache 2 fooLocal ip42
    [ipLoopback6] (by decide) (by decide) (by
      intro j hj hget
      have : sampleNames.get? j = none := by
        have h3 : sampleNames.length ≤ j := by
          show 3 ≤ j
          omega
        exact List.get?_eq_none.mpr h3
      rw [this] at hget
      cases hget)

/-- C13: the entry under a key that is not in the list, or whose every occurrence in the list
fails to resolve, is after the pass what it was before, whatever the other names do. -/
theorem refreshCache_frame (names : List Bytes)
    (resolve : Nat → Bytes → Option (List Bytes)) (clock : Nat → Int) (cache : Cache)
    (key : Bytes) :
    (key ∉ names → refreshCache names resolve clock cache key = cache key)
    ∧ ((∀ j, names.get? j = some key → fails resolve j key) →
        refreshCache names resolve clock cache key = cache key) := by
  have h2 : (∀ j, names.get? j = some key → fails resolve j key) →
      refreshCache names resolve clock cache key = cache key := by
    intro h
    exact refreshLoop_frame resolve clock key names 0 cache (by
      intro j hj; simpa using h j hj)
  refine ⟨?_, h2⟩
  intro hk
  apply h2
  intro j hj
  exact absurd (List.get?_mem hj) hk

/-- Instance of C13: `bar.local` fails to resolve and keeps its entry while `foo.local` is
written; the key `foo`, not in the list, stays absent. -/
theorem refreshCache_frame_witness :
    refreshCache sampleNames sampleResolve sampleClock barCache fooName = barCache fooName
    ∧ refreshCache sampleNames sampleResolve sampleClock barCache barLocal
        = barCache barLocal :=
  ⟨(refreshCache_frame sampleNames sampleResolve sampleClock barCache fooName).1 (by decide),
   (refreshCache_frame sampleNames sampleResolve sampleClock barCache barLocal).2 (by
      intro j hj
      left
      have hne : trimSuffix barLocal dotLocal ++ dotLan ≠ fooLan := by decide
      simp [sampleResolve, hne])⟩

/-- C14 fails on the code: with the known name `foo.local` and `foo.lan` resolving to
`192.168.1.42`, the pass stores the entry under the key `foo.local`; the key `foo`, which the
responder looks up for a query for `foo.local`, stays absent and nothing is sent. -/
theorem refreshCache_key_mismatch :
    refreshCache [fooLocal] (fun _ host => if host = fooLan then some [ip42] else none)
        (fun _ => 0) emptyCache fooLocal = some (some ⟨ip42, fiveMinutes⟩)
    ∧ extractName fooQuery = some fooName
    ∧ refreshCache [fooLocal] (fun _ host => if host = fooLan then some [ip42] else none)
        (fun _ => 0) emptyCache fooName = none
    ∧ getCachedIP (refreshCache [fooLocal]
        (fun _ host => if host = fooLan then some [ip42] else none) (fun _ => 0) emptyCache)
        1 fooName = some []
    ∧ (loopIteration (refreshCache [fooLocal]
        (fun _ host => if host = fooLan then some [ip42] else none) (fun _ => 0) emptyCache)
        1 (Recv.datagram fooQuery querier)).map (fun r => sent r.2) = some [] := by
  decide

theorem refreshLoop_noNil (resolve : Nat → Bytes → Option (List Bytes)) (clock : Nat → Int) :
    ∀ (names : List Bytes) (i : Nat) (c : Cache), (∀ k, c k ≠ some none) →
    ∀ k, refreshLoop resolve clock names i c k ≠ some none := by
  intro names
  induction names with
  | nil => intro i c h k; exact h k
  | cons loc rest ih =>
    intro i c h
    unfold refreshLoop
    cases resolve i (trimSuffix loc dotLocal ++ dotLan) with
    | none => exact ih (i + 1) c h
    | some ips =>
      cases ips with
      | nil => exact ih (i + 1) c h
      | cons ip0 more =>
        apply ih
        intro k
        unfold update
        split
        · simp
        · exact h k

theorem runPasses_noNil : ∀ (passes : List Pass) (c : Cache), (∀ k, c k ≠ some none) →
    ∀ k, runPasses passes c k ≠ some none := by
  intro passes
  induction passes with
  | nil => intro c h; exact h
  | cons p ps ih =>
    intro c h
    exact ih _ (refreshLoop_noNil p.resolve p.clock p.names 0 c h)

theorem getCachedIP_total (c : Cache) (h : ∀ k, c k ≠ some none) (now : Int) (name : Bytes) :
    ∃ ip, getCachedIP c now name = some ip := by
  unfold getCachedIP
  cases hc : c name with
  | none => exact ⟨[], rfl⟩
  | some p =>
    cases p with
    | none => exact absurd hc (h name)
    | some e =>
      simp only []
      split
      · exact ⟨[], rfl⟩
      · exact ⟨e.ip, rfl⟩

theorem loopIteration_total (c : Cache) (h : ∀ k, c k ≠ some none) (now : Int) (recv : Recv) :
    ∃ r, loopIteration c now recv = some r := by
  cases recv with
  | error => exact ⟨_, rfl⟩
  | datagram payload src =>
    unfold loopIteration
    simp only []
    split
    · exact ⟨_, rfl⟩
    · rw [extractName_eq]
      simp only []
      split
      · exact ⟨_, rfl⟩
      · obtain ⟨ip, hip⟩ := getCachedIP_total c h now
          (((fields (((split (trimSpace (beforeDotLocal (payload.take 1024)))
            newline).getLast?).getD [])).getLast?).getD [])
        rw [hip]
        simp only []
        split <;> exact ⟨_, rfl⟩

/-- C15: on a cache reached from the empty map by refresh passes, one iteration of the
responder loop returns for every datagram; `extractName` returns for every byte sequence, the
indexings `lines[len(lines)-1]` and `fields[len(fields)-1]` are in bounds, and no entry of
such a cache is a nil pointer. -/
theorem handling_never_aborts (passes : List Pass) (now : Int) (recv : Recv) :
    (∃ r, loopIteration (runPasses passes emptyCache) now recv = some r)
    ∧ (∀ data : Bytes, ∃ name, extractName data = some name)
    ∧ (∀ raw : Bytes, (lastElem (split raw newline)).isSome = true)
    ∧ (∀ last : Bytes, (fields last).length ≠ 0 → (lastElem (fields last)).isSome = true)
    ∧ (∀ name, runPasses passes emptyCache name ≠ some none) := by
  have hn : ∀ k, runPasses passes emptyCache k ≠ some none :=
    runPasses_noNil passes emptyCache (by intro k; simp [emptyCache])
  refine ⟨loopIteration_total _ hn now recv, fun data => ⟨_, extractName_eq data⟩, ?_, ?_, hn⟩
  · intro raw
    have hne : split raw newline ≠ [] := genSplit_ne_nil _ _ _
    rw [lastElem_of_ne_nil _ hne]
    rfl
  · intro last hl
    rw [lastElem_of_ne_nil _ (by intro h; exact hl (by simp [h]))]
    rfl

theorem sent_append (a b : List Effect) : sent (a ++ b) = sent a ++ sent b := by
  induction a with
  | nil => rfl
  | cons e es ih =>
    cases e <;> simp [sent, ih]

theorem loopIteration_emptyCache (now : Int) (recv : Recv) :
    ∃ effs, loopIteration emptyCache now recv = some (emptyCache, effs) ∧ sent effs = [] := by
  cases recv with
  | error => exact ⟨_, rfl, rfl⟩
  | datagram payload src =>
    unfold loopIteration
    simp only []
    split
    · exact ⟨_, rfl, rfl⟩
    · rw [extractName_eq]
      simp only []
      split
      · exact ⟨_, rfl, rfl⟩
      · exact ⟨_, rfl, rfl⟩

theorem mainRun_emptyCache : ∀ events : List Event,
    ∃ effs, mainRun events emptyCache = some (emptyCache, effs) ∧ sent effs = [] := by
  intro events
  induction events with
  | nil => exact ⟨[], rfl, rfl⟩
  | cons e es ih =>
    obtain ⟨effs2, h2, hs2⟩ := ih
    cases e with
    | refresh resolve clock =>
      exact ⟨effs2, by simpa [mainRun, refreshCache, knownNames, refreshLoop] using h2, hs2⟩
    | packet now recv =>
      obtain ⟨effs, h1, hs1⟩ := loopIteration_emptyCache now recv
      refine ⟨effs ++ effs2, ?_, ?_⟩
      · simp [mainRun, h1, h2]
      · rw [sent_append, hs1, hs2]
        rfl

/-- C18: with the empty list of the source a refresh pass leaves every cache as it is; so
after every sequence of refresh passes and responder iterations from the empty map the cache
is still the empty map, no datagram has been sent, and a lookup yields the empty string for
every name. -/
theorem main_never_replies (events : List Event) :
    (∀ resolve clock c, refreshCache knownNames resolve clock c = c)
    ∧ (∃ effs, mainRun events emptyCache = some (emptyCache, effs) ∧ sent effs = [])
    ∧ (∀ now name, getCachedIP emptyCache now name = some []) :=
  ⟨fun _ _ _ => rfl, mainRun_emptyCache events, fun _ _ => rfl⟩

/-- The bytes of a decoded rune decode to the same rune on their own. -/
theorem decodeRune_take (s : Bytes) (hs : s ≠ []) :
    decodeRune (s.take (decodeRune s).2) = decodeRune s := by
  cases s with
  | nil => exact absurd rfl hs
  | cons s0 t =>
    rcases decodeRune_cases s0 t with ⟨hl, h'⟩ | ⟨h0, h'⟩
      | ⟨sz, lo, hi, s1, t1, hl, hsz, ht, h1, h2, h'⟩
      | ⟨sz, lo, hi, s1, s2, t2, hl, hsz, ht, h1, h2, h3, h4, h'⟩
      | ⟨sz, lo, hi, s1, s2, s3, t3, hl, hsz, ht, h1, h2, h3, h4, h5, h6, h'⟩
    · rw [h']
      simp [decodeRune, hl]
    · rw [h']
      simp only [List.take_succ_cons, List.take_zero]
      rcases decodeRune_cases s0 [] with ⟨_, h2⟩ | ⟨_, h2⟩ | ⟨_, _, _, _, _, _, _, ht, _⟩
        | ⟨_, _, _, _, _, _, _, _, ht, _⟩ | ⟨_, _, _, _, _, _, _, _, _, ht, _⟩
      · rw [h2]
        have : ¬ s0 < 128 := by omega
        simp [this]
      · exact h2
      · cases ht
      · cases ht
      · cases ht
    · subst ht hsz
      rw [h']
      simp only [List.take_succ_cons, List.take_zero]
      exact decodeRune_two hl h1 h2 []
    · subst ht hsz
      rw [h']
      simp only [List.take_succ_cons, List.take_zero]
      exact decodeRune_three hl h1 h2 h3 h4 []
    · subst ht hsz
      rw [h']
      simp only [List.take_succ_cons, List.take_zero]
      exact decodeRune_four hl h1 h2 h3 h4 h5 h6 []

/-- After its first byte a decoded rune has continuation bytes only: nothing is decoded from
a proper non-empty suffix of its bytes. -/
theorem rune_suffix (s : Bytes) (c' e x : Bytes)
    (hsplit : s.take (decodeRune s).2 = c' ++ e) (hc : c' ≠ []) (he : e ≠ []) :
    decodeRune (e ++ x) = (runeError, 1) := by
  have hcont : ∀ (c : Nat) (t : Bytes), 0x80 ≤ c → c ≤ 0xBF →
      decodeRune (c :: t ++ x) = (runeError, 1) := by
    intro c t h1 h2
    rw [List.cons_append, decodeRune_cont c _ h1 h2]
  cases s with
  | nil => simp at hsplit; exact absurd hsplit.1 hc
  | cons s0 t0 =>
    cases c' with
    | nil => exact absurd rfl hc
    | cons d c'' =>
      rcases decodeRune_cases s0 t0 with ⟨_, h'⟩ | ⟨_, h'⟩
        | ⟨sz, lo, hi, s1, t1, hl, hsz, ht, h1, h2, h'⟩
        | ⟨sz, lo, hi, s1, s2, t2, hl, hsz, ht, h1, h2, h3, h4, h'⟩
        | ⟨sz, lo, hi, s1, s2, s3, t3, hl, hsz, ht, h1, h2, h3, h4, h5, h6, h'⟩
      · rw [h'] at hsplit
        simp at hsplit
        exact absurd hsplit.2.2 he
      · rw [h'] at hsplit
        simp at hsplit
        exact absurd hsplit.2.2 he
      · have hb := leadInfo_some hl
        rw [h'] at hsplit
        subst ht
        simp only [List.take_succ_cons, List.take_zero, List.cons_append, List.cons.injEq]
          at hsplit
        obtain ⟨_, ht0⟩ := hsplit
        rcases c'' with _ | ⟨a, c3⟩
        · simp at ht0
          subst ht0
          exact hcont s1 [] (by omega) (by omega)
        · simp at ht0
          exact absurd ht0.2.2 he
      · have hb := leadInfo_some hl
        rw [h'] at hsplit
        subst ht
        simp only [List.take_succ_cons, List.take_zero, List.cons_append, List.cons.injEq]
          at hsplit
        obtain ⟨_, ht0⟩ := hsplit
        rcases c'' with _ | ⟨a, _ | ⟨b, c3⟩⟩
        · simp at ht0
          subst ht0
          exact hcont s1 [s2] (by omega) (by omega)
        · simp at ht0
          obtain ⟨_, rfl⟩ := ht0
          exact hcont s2 [] h3 h4
        · simp at ht0
          exact absurd ht0.2.2.2 he
      · have hb := leadInfo_some hl
        rw [h'] at hsplit
        subst ht
        simp only [List.take_succ_cons, List.take_zero, List.cons_append, List.cons.injEq]
          at hsplit
        obtain ⟨_, ht0⟩ := hsplit
        rcases c'' with _ | ⟨a, _ | ⟨b, _ | ⟨c, c3⟩⟩⟩
        · simp at ht0
          subst ht0
          exact hcont s1 [s2, s3] (by omega) (by omega)
        · simp at ht0
          obtain ⟨_, rfl⟩ := ht0
          exact hcont s2 [s3] h3 h4
        · simp at ht0
          obtain ⟨_, _, rfl⟩ := ht0
          exact hcont s3 [] h5 h6
        · simp at ht0
          exact absurd ht0.2.2.2.2 he

theorem containsSpace_append (T : Bytes) (hT : containsSpace T = false) : ∀ u : Bytes,
    (∀ c' e, u = c' ++ e → e ≠ [] → isSpace (decodeRune (e ++ T)).1 = false) →
    containsSpace (u ++ T) = false := by
  intro u
  induction u with
  | nil => intro _; simpa using hT
  | cons c u ih =>
    intro h
    simp only [List.cons_append, containsSpace, Bool.or_eq_false_iff]
    refine ⟨?_, ?_⟩
    · have := h [] (c :: u) rfl (by simp)
      simpa using this
    · apply ih
      intro c' e hsplit he
      exact h (c :: c') e (by simp [hsplit]) he

theorem startsRune_flatten (ws : List Bytes) (h : ∀ w ∈ ws, isSpaceChar w = true) :
    startsRune ws.flatten = true := by
  cases ws with
  | nil => rfl
  | cons w ws =>
    obtain ⟨hs, _, _⟩ := isSpaceChar_spec w (h w (by simp))
    simp only [List.flatten_cons]
    exact startsRune_of_space _ (by rw [decodeRune_append_of_space w _ hs]; exact hs)

/-- Every string is a run of white-space characters, or has a last token: a non-empty run of
runes without white space that starts the string or follows a white-space character, and is
followed by white-space characters only. -/
theorem forward_decomp : ∀ (n : Nat) (p : Bytes), p.length ≤ n →
    (∃ ws : List Bytes, (∀ w ∈ ws, isSpaceChar w = true) ∧ p = ws.flatten)
    ∨ (∃ (a T : Bytes) (ws : List Bytes), p = a ++ (T ++ ws.flatten)
        ∧ (a = [] ∨ ∃ a' w, a = a' ++ w ∧ isSpaceChar w = true)
        ∧ T ≠ [] ∧ containsSpace T = false ∧ ∀ w ∈ ws, isSpaceChar w = true) := by
  intro n
  induction n with
  | zero =>
    intro p hp
    have : p = [] := List.eq_nil_of_length_eq_zero (by omega)
    exact Or.inl ⟨[], by simp, by simp [this]⟩
  | succ n ih =>
    intro p hp
    by_cases hpe : p = []
    · exact Or.inl ⟨[], by simp, by simp [hpe]⟩
    · have hw := decodeRune_width_le p hpe
      have hsplit : p = p.take (decodeRune p).2 ++ p.drop (decodeRune p).2 :=
        (List.take_append_drop _ _).symm
      have hdu := decodeRune_take p hpe
      have hul : (p.take (decodeRune p).2).length = (decodeRune p).2 := by
        simp
        omega
      have hune : p.take (decodeRune p).2 ≠ [] := by
        intro h
        rw [h] at hul
        simp at hul
        omega
      generalize hu : p.take (decodeRune p).2 = u at hsplit hdu hul hune
      generalize hq : p.drop (decodeRune p).2 = q at hsplit
      have hql : q.length ≤ n := by
        have := congrArg List.length hsplit
        simp at this
        omega
      have hsuf : ∀ c' e x, u = c' ++ e → c' ≠ [] → e ≠ [] →
          isSpace (decodeRune (e ++ x)).1 = false := by
        intro c' e x h1 h2 h3
        rw [rune_suffix p c' e x (by rw [hu]; exact h1) h2 h3]
        exact isSpace_runeError
      by_cases hsp : isSpace (decodeRune p).1 = true
      · have hwu : isSpaceChar u = true := by
          simp only [isSpaceChar, hdu, hsp, hul, Bool.true_and, beq_self_eq_true]
        rcases ih q hql with ⟨ws, h1, h2⟩ | ⟨a, T, ws, h1, h2, h3, h4, h5⟩
        · left
          refine ⟨u :: ws, ?_, ?_⟩
          · intro w hw'
            rcases List.mem_cons.mp hw' with h | h
            · rw [h]; exact hwu
            · exact h1 w h
          · rw [hsplit, h2]; simp
        · right
          refine ⟨u ++ a, T, ws, ?_, ?_, h3, h4, h5⟩
          · rw [hsplit, h1]; simp
          · right
            rcases h2 with h2 | ⟨a', w, h2, h2'⟩
            · exact ⟨[], u, by simp [h2], hwu⟩
            · exact ⟨u ++ a', w, by simp [h2], h2'⟩
      · have hns : isSpace (decodeRune p).1 = false := by simpa using hsp
        rcases ih q hql with ⟨ws, h1, h2⟩ | ⟨a, T, ws, h1, h2, h3, h4, h5⟩
        · right
          refine ⟨[], u, ws, by rw [hsplit, h2]; simp, Or.inl rfl, hune, ?_, h1⟩
          have := containsSpace_append [] rfl u (by
            intro c' e h he
            by_cases hc' : c' = []
            · subst hc'
              simp at h
              subst h
              simp only [List.append_nil, hdu]
              exact hns
            · exact hsuf c' e [] h hc' he)
          simpa using this
        · rcases h2 with h2 | ⟨a', w, h2, h2'⟩
          · right
            subst h2
            refine ⟨[], u ++ T, ws, by rw [hsplit, h1]; simp, Or.inl rfl, by simp [hune], ?_,
              h5⟩
            apply containsSpace_append T h4 u
            intro c' e h he
            by_cases hc' : c' = []
            · subst hc'
              simp at h
              subst h
              have e1 : decodeRune ((u ++ T) ++ ws.flatten) = decodeRune (u ++ T) :=
                decodeRune_append_startsRune (u ++ T) _ (by simp [hune])
                  (startsRune_flatten ws h5)
              rw [← e1]
              have e2 : (u ++ T) ++ ws.flatten = p := by
                rw [hsplit, h1]; simp
              rw [e2]
              exact hns
            · exact hsuf c' e T h hc' he
          · right
            exact ⟨u ++ (a' ++ w), T, ws, by rw [hsplit, h1, h2]; simp,
              Or.inr ⟨u ++ a', w, by simp, h2'⟩, h3, h4, h5⟩

theorem fieldsLoop_spaces : ∀ (ws : List Bytes), (∀ w ∈ ws, isSpaceChar w = true) →
    ∀ (fuel : Nat) (cur : Option Bytes), ws.flatten.length ≤ fuel →
    fieldsLoop fuel ws.flatten cur = cur.toList := by
  intro ws
  induction ws with
  | nil =>
    intro _ fuel cur _
    cases fuel <;> simp [fieldsLoop]
  | cons w ws ih =>
    intro h fuel cur hl
    obtain ⟨hs, hlen, hwn⟩ := isSpaceChar_spec w (h w (by simp))
    have hwl : 0 < w.length := List.length_pos.mpr hwn
    simp only [List.flatten_cons, List.length_append] at hl ⊢
    obtain ⟨f, rfl⟩ : ∃ f, fuel = f + 1 := ⟨fuel - 1, by omega⟩
    have hne : w ++ ws.flatten ≠ [] := by simp [hwn]
    simp only [fieldsLoop, hne, if_false, decodeRune_append_of_space w _ hs, hs, if_true, hlen,
      List.drop_left]
    rw [ih (fun w' hw' => h w' (by simp [hw'])) f none (by omega)]
    simp

theorem fieldsLoop_noSpace_spaces (ws : List Bytes) (hws : ∀ w ∈ ws, isSpaceChar w = true) :
    ∀ (fuel : Nat) (s x : Bytes), containsSpace s = false →
    s.length + ws.flatten.length ≤ fuel →
    fieldsLoop fuel (s ++ ws.flatten) (some x) = [x ++ s] := by
  intro fuel
  induction fuel with
  | zero =>
    intro s x _ hl
    have : s = [] := List.eq_nil_of_length_eq_zero (by omega)
    subst this
    simp [fieldsLoop]
  | succ fuel ih =>
    intro s x hs hl
    by_cases he : s = []
    · subst he
      simp only [List.nil_append, List.append_nil]
      rw [fieldsLoop_spaces ws hws (fuel + 1) (some x) (by simpa using hl)]
      rfl
    · have hw := decodeRune_width_le s he
      have hh := containsSpace_head s hs
      have hne : s ++ ws.flatten ≠ [] := by simp [he]
      have hd := decodeRune_append_startsRune s ws.flatten he (startsRune_flatten ws hws)
      have hdrop : (s ++ ws.flatten).drop (decodeRune s).2 = s.drop (decodeRune s).2 ++ ws.flatten :=
        List.drop_append_of_le_length hw.2
      have htake : (s ++ ws.flatten).take (decodeRune s).2 = s.take (decodeRune s).2 :=
        List.take_append_of_le_length hw.2
      simp only [fieldsLoop, hne, if_false, hd, hh, Bool.false_eq_true, Option.getD_some, hdrop,
        htake]
      rw [ih _ _ (containsSpace_drop _ s hs) (by simp only [List.length_drop]; omega)]
      simp [List.append_assoc]

theorem fieldsLoop_token_spaces (ws : List Bytes) (hws : ∀ w ∈ ws, isSpaceChar w = true)
    (fuel : Nat) (s : Bytes) (hs : containsSpace s = false) (he : s ≠ [])
    (hl : s.length + ws.flatten.length ≤ fuel) :
    fieldsLoop fuel (s ++ ws.flatten) none = [s] := by
  obtain ⟨f, rfl⟩ : ∃ f, fuel = f + 1 :=
    ⟨fuel - 1, by have := List.length_pos.mpr he; omega⟩
  have hw := decodeRune_width_le s he
  have hh := containsSpace_head s hs
  have hne : s ++ ws.flatten ≠ [] := by simp [he]
  have hd := decodeRune_append_startsRune s ws.flatten he (startsRune_flatten ws hws)
  have hdrop : (s ++ ws.flatten).drop (decodeRune s).2 = s.drop (decodeRune s).2 ++ ws.flatten :=
    List.drop_append_of_le_length hw.2
  have htake : (s ++ ws.flatten).take (decodeRune s).2 = s.take (decodeRune s).2 :=
    List.take_append_of_le_length hw.2
  simp only [fieldsLoop, hne, if_false, hd, hh, Bool.false_eq_true, Option.getD_none,
    List.nil_append, hdrop, htake]
  rw [fieldsLoop_noSpace_spaces ws hws _ _ _ (containsSpace_drop _ s hs)
    (by simp only [List.length_drop]; omega)]
  simp

theorem startsRune_token_spaces (T : Bytes) (ws : List Bytes) (hT : T ≠ []) :
    startsRune (T ++ ws.flatten) = startsRune T := by
  cases T with
  | nil => exact absurd rfl hT
  | cons c t => rfl

/-- The last field of a string with a last token is that token. -/
theorem fields_last_token (a T : Bytes) (ws : List Bytes)
    (ha : a = [] ∨ ∃ a' w, a = a' ++ w ∧ isSpaceChar w = true) (hT : T ≠ [])
    (hns : containsSpace T = false) (hws : ∀ w ∈ ws, isSpaceChar w = true) :
    (fields (a ++ (T ++ ws.flatten))).getLast? = some T := by
  rcases ha with ha | ⟨a', w, ha, hw⟩
  · subst ha
    unfold fields
    simp only [List.nil_append]
    rw [fieldsLoop_token_spaces ws hws _ T hns hT (by simp only [List.length_append]; omega)]
    rfl
  · subst ha
    obtain ⟨hs, hlen, hwn⟩ := isSpaceChar_spec w hw
    have hwl : 0 < w.length := List.length_pos.mpr hwn
    have hsr : startsRune (w ++ (T ++ ws.flatten)) = true :=
      startsRune_of_space _ (by rw [decodeRune_append_of_space w _ hs]; exact hs)
    have e : (a' ++ w) ++ (T ++ ws.flatten) = a' ++ (w ++ (T ++ ws.flatten)) := by
      simp only [List.append_assoc]
    rw [e]
    obtain ⟨fs, fuel', cur', h1, h2⟩ :=
      fieldsLoop_reach (w ++ (T ++ ws.flatten)) hsr
        (a' ++ (w ++ (T ++ ws.flatten))).length a' none
        (by simp only [List.length_append]; omega)
    unfold fields
    rw [h2]
    simp only [List.length_append] at h1
    obtain ⟨f, rfl⟩ : ∃ f, fuel' = f + 1 := ⟨fuel' - 1, by omega⟩
    have hne2 : w ++ (T ++ ws.flatten) ≠ [] := by simp [hwn]
    simp only [fieldsLoop, hne2, if_false, decodeRune_append_of_space w _ hs, hs, if_true, hlen,
      List.drop_left]
    rw [fieldsLoop_token_spaces ws hws f T hns hT (by omega)]
    simp

theorem fields_spaces (ws : List Bytes) (hws : ∀ w ∈ ws, isSpaceChar w = true) :
    fields ws.flatten = [] := by
  unfold fields
  rw [fieldsLoop_spaces ws hws _ none (Nat.le_refl _)]
  rfl

theorem trimLeft_spaces : ∀ (ws : List Bytes), (∀ w ∈ ws, isSpaceChar w = true) →
    ∀ (fuel : Nat), ws.flatten.length ≤ fuel → trimLeft fuel ws.flatten = [] := by
  intro ws
  induction ws with
  | nil =>
    intro _ fuel _
    cases fuel <;> simp [trimLeft]
  | cons w ws ih =>
    intro h fuel hl
    obtain ⟨hs, hlen, hwn⟩ := isSpaceChar_spec w (h w (by simp))
    have hwl : 0 < w.length := List.length_pos.mpr hwn
    simp only [List.flatten_cons, List.length_append] at hl ⊢
    obtain ⟨f, rfl⟩ : ∃ f, fuel = f + 1 := ⟨fuel - 1, by omega⟩
    have hne : w ++ ws.flatten ≠ [] := by simp [hwn]
    simp only [trimLeft, hne, if_false, decodeRune_append_of_space w _ hs, hs, if_true, hlen,
      List.drop_left]
    exact ih (fun w' hw' => h w' (by simp [hw'])) f (by omega)

theorem trimLeft_good_head (w token pre : Bytes) (hw : isSpaceChar w = true)
    (hh : isSpace (decodeRune token).1 = false) :
    trimLeft (pre ++ (w ++ token)).length (pre ++ (w ++ token)) = token
    ∨ ∃ u, trimLeft (pre ++ (w ++ token)).length (pre ++ (w ++ token)) = u ++ (w ++ token) := by
  obtain ⟨hs, hlen, hwn⟩ := isSpaceChar_spec w hw
  have hsr : startsRune (w ++ token) = true :=
    startsRune_of_space _ (by rw [decodeRune_append_of_space w token hs]; exact hs)
  obtain ⟨u', fuel', h1, h2 | h2⟩ :=
    trimLeft_reach (w ++ token) hsr (pre ++ (w ++ token)).length pre (by simp)
  · exact Or.inr ⟨u', h2⟩
  · left
    rw [h2]
    cases fuel' with
    | zero =>
      simp at h1
      exact absurd h1.1 hwn
    | succ f =>
      have hne2 : w ++ token ≠ [] := by simp [hwn]
      simp only [trimLeft, hne2, if_false, decodeRune_append_of_space w token hs, hs, if_true,
        hlen, List.drop_left]
      exact trimLeft_of_not_space f token hh

theorem getD_append_length (X w : Bytes) (j : Nat) :
    (X ++ w).getD (X.length + j) 0 = w.getD j 0 := by
  simp [List.getD_eq_getElem?_getD, List.getElem?_append_right]

theorem lastRuneStart_hit (s : Bytes) (lim : Int) (f : Nat) (start : Int) (h1 : start ≥ lim)
    (h2 : runeStart (s.getD start.toNat 0) = true) :
    lastRuneStart s lim (f + 1) start = start := by
  rw [lastRuneStart, if_pos h1, if_pos h2]

theorem lastRuneStart_skip (s : Bytes) (lim : Int) (f : Nat) (start : Int) (h1 : start ≥ lim)
    (h2 : runeStart (s.getD start.toNat 0) = false) :
    lastRuneStart s lim (f + 1) start = lastRuneStart s lim f (start - 1) := by
  rw [lastRuneStart, if_pos h1, if_neg (by rw [h2]; exact Bool.false_ne_true)]

theorem lastRuneStart_le (s : Bytes) (lim : Int) : ∀ (f : Nat) (start : Int),
    lastRuneStart s lim f start ≤ start := by
  intro f
  induction f with
  | zero => intro start; rw [lastRuneStart]
  | succ f ih =>
    intro start
    rw [lastRuneStart]
    split
    · split
      · exact Int.le_refl _
      · have := ih (start - 1)
        omega
    · exact Int.le_refl _

theorem decodeLastRune_width_pos (s : Bytes) (hs : s ≠ []) : 1 ≤ (decodeLastRune s).2 := by
  have hlen : s.length ≠ 0 := fun h => hs (List.eq_nil_of_length_eq_zero h)
  have hpos : 0 < s.length := by omega
  unfold decodeLastRune
  simp only [hlen, if_false]
  by_cases hr : s.getD (s.length - 1) 0 < 0x80
  · simp only [hr, if_true]
    exact Nat.le_refl _
  · simp only [hr, if_false]
    have hle := lastRuneStart_le s (if (s.length : Int) - 4 < 0 then 0 else (s.length : Int) - 4)
      4 ((s.length : Int) - 2)
    generalize lastRuneStart s (if (s.length : Int) - 4 < 0 then 0 else (s.length : Int) - 4) 4
      ((s.length : Int) - 2) = st at hle
    by_cases hst : st < 0
    · simp only [hst, if_true]
      split
      · exact Nat.le_refl _
      · simp only [Int.toNat_zero, List.drop_zero]
        exact (decodeRune_width_le s hs).1
    · simp only [hst, if_false]
      split
      · exact Nat.le_refl _
      · have hne : s.drop st.toNat ≠ [] := by
          simp only [ne_eq, List.drop_eq_nil_iff, not_le]
          omega
        exact (decodeRune_width_le _ hne).1

theorem decodeLastRune_of_start (s : Bytes) (i : Nat)
    (hlast : ¬ s.getD (s.length - 1) 0 < 0x80)
    (hstart : lastRuneStart s (if (s.length : Int) - 4 < 0 then 0 else (s.length : Int) - 4) 4
      ((s.length : Int) - 2) = (i : Int))
    (hend : i + (decodeRune (s.drop i)).2 = s.length) (hs : s ≠ []) :
    decodeLastRune s = decodeRune (s.drop i) := by
  have hlen : s.length ≠ 0 := fun h => hs (List.eq_nil_of_length_eq_zero h)
  unfold decodeLastRune
  simp only [hlen, if_false, hlast, hstart]
  have h0 : ¬ (i : Int) < 0 := by omega
  simp only [h0, if_false, Int.toNat_ofNat]
  have : ¬ ((i : Int) + ((decodeRune (s.drop i)).2 : Int) ≠ (s.length : Int)) := by
    simp only [ne_eq, not_not]
    omega
  rw [if_neg this]

theorem runeStart_lead (b : Nat) (h : 0xC2 ≤ b) : runeStart b = true := by
  simp [runeStart]
  omega

theorem runeStart_cont (b : Nat) (h1 : 0x80 ≤ b) (h2 : b ≤ 0xBF) : runeStart b = false := by
  simp [runeStart]
  omega

/-- Decoding backwards from the end of a string that ends with a white-space character
yields that character. -/
theorem decodeLastRune_append_space (X w : Bytes) (hw : isSpaceChar w = true) :
    decodeLastRune (X ++ w) = decodeRune w := by
  obtain ⟨hs, hlen, hwn⟩ := isSpaceChar_spec w hw
  cases w with
  | nil => exact absurd rfl hwn
  | cons s0 t0 =>
    rcases decodeRune_cases s0 t0 with ⟨hl, h'⟩ | ⟨_, h'⟩
      | ⟨sz, lo, hi, s1, t1, hl, hsz, ht, h1, h2, h'⟩
      | ⟨sz, lo, hi, s1, s2, t2, hl, hsz, ht, h1, h2, h3, h4, h'⟩
      | ⟨sz, lo, hi, s1, s2, s3, t3, hl, hsz, ht, h1, h2, h3, h4, h5, h6, h'⟩
    · rw [h'] at hlen hs
      simp at hlen
      subst hlen
      have hlt : s0 < 0x80 := by
        by_contra hc
        simp only [hc, if_false] at hs
        rw [isSpace_runeError] at hs
        exact absurd hs (by simp)
      rw [h']
      unfold decodeLastRune
      have e1 : (X ++ [s0]).length - 1 = X.length + 0 := by simp
      have e2 : (X ++ [s0]).getD ((X ++ [s0]).length - 1) 0 = s0 := by
        rw [e1, getD_append_length]
        rfl
      simp [e2, hlt]
    · rw [h'] at hs
      simp [isSpace_runeError] at hs
    · have hb := leadInfo_some hl
      rw [h'] at hlen
      subst ht
      simp at hlen
      subst hlen
      have hd : (X ++ [s0, s1]).drop X.length = [s0, s1] := List.drop_left _ _
      have hres := decodeLastRune_of_start (X ++ [s0, s1]) X.length
        (by
          have e1 : (X ++ [s0, s1]).length - 1 = X.length + 1 := by simp
          rw [e1, getD_append_length]
          simp
          omega)
        (by
          have e0 : ((X ++ [s0, s1]).length : Int) - 2 = (X.length : Int) := by
            simp
          rw [e0, lastRuneStart_hit _ _ _ _ (by split <;> omega)
            (by
              rw [Int.toNat_ofNat, show X.length = X.length + 0 by rfl, getD_append_length]
              exact runeStart_lead s0 hb.1)])
        (by rw [hd, h']; simp) (by simp)
      rw [hres, hd]
    · have hb := leadInfo_some hl
      rw [h'] at hlen
      subst ht
      simp at hlen
      subst hlen
      have hd : (X ++ [s0, s1, s2]).drop X.length = [s0, s1, s2] := List.drop_left _ _
      have hres := decodeLastRune_of_start (X ++ [s0, s1, s2]) X.length
        (by
          have e1 : (X ++ [s0, s1, s2]).length - 1 = X.length + 2 := by simp
          rw [e1, getD_append_length]
          simp
          omega)
        (by
          have e0 : ((X ++ [s0, s1, s2]).length : Int) - 2 = ((X.length + 1 : Nat) : Int) := by
            simp
            omega
          have e1 : ((X.length + 1 : Nat) : Int) - 1 = (X.length : Int) := by
            simp
          rw [e0, lastRuneStart_skip _ _ _ _ (by split <;> omega)
            (by
              rw [Int.toNat_ofNat, getD_append_length]
              exact runeStart_cont s1 (by omega) (by omega)),
            e1, lastRuneStart_hit _ _ _ _ (by split <;> omega)
            (by
              rw [Int.toNat_ofNat, show X.length = X.length + 0 by rfl, getD_append_length]
              exact runeStart_lead s0 hb.1)])
        (by rw [hd, h']; simp) (by simp)
      rw [hres, hd]
    · have hb := leadInfo_some hl
      rw [h'] at hlen
      subst ht
      simp at hlen
      subst hlen
      have hd : (X ++ [s0, s1, s2, s3]).drop X.length = [s0, s1, s2, s3] := List.drop_left _ _
      have hres := decodeLastRune_of_start (X ++ [s0, s1, s2, s3]) X.length
        (by
          have e1 : (X ++ [s0, s1, s2, s3]).length - 1 = X.length + 3 := by simp
          rw [e1, getD_append_length]
          simp
          omega)
        (by
          have e0 : ((X ++ [s0, s1, s2, s3]).length : Int) - 2
              = ((X.length + 2 : Nat) : Int) := by
            simp
            omega
          have e1 : ((X.length + 2 : Nat) : Int) - 1 = ((X.length + 1 : Nat) : Int) := by
            simp
            omega
          have e2 : ((X.length + 1 : Nat) : Int) - 1 = (X.length : Int) := by
            simp
          rw [e0, lastRuneStart_skip _ _ _ _ (by split <;> omega)
            (by
              rw [Int.toNat_ofNat, getD_append_length]
              exact runeStart_cont s2 (by omega) (by omega)),
            e1, lastRuneStart_skip _ _ _ _ (by split <;> omega)
            (by
              rw [Int.toNat_ofNat, getD_append_length]
              exact runeStart_cont s1 (by omega) (by omega)),
            e2, lastRuneStart_hit _ _ _ _ (by split <;> omega)
            (by
              rw [Int.toNat_ofNat, show X.length = X.length + 0 by rfl, getD_append_length]
              exact runeStart_lead s0 hb.1)])
        (by rw [hd, h']; simp) (by simp)
      rw [hres, hd]

theorem lastIndexFunc_spaces (X : Bytes) : ∀ (ws : List Bytes),
    (∀ w ∈ ws, isSpaceChar w = true) → ∀ fuel, X.length + ws.flatten.length ≤ fuel →
    ∃ fuel', X.length ≤ fuel' ∧ lastIndexFunc fuel (X ++ ws.flatten) = lastIndexFunc fuel' X := by
  intro ws
  induction ws using List.reverseRecOn with
  | nil =>
    intro _ fuel hl
    exact ⟨fuel, by simpa using hl, by simp⟩
  | append_singleton ws w ih =>
    intro h fuel hl
    have hw := h w (by simp)
    obtain ⟨hs, hlen, hwn⟩ := isSpaceChar_spec w hw
    have hwl : 0 < w.length := List.length_pos.mpr hwn
    have e : X ++ (ws ++ [w]).flatten = (X ++ ws.flatten) ++ w := by simp
    have el : (ws ++ [w]).flatten.length = ws.flatten.length + w.length := by
      simp only [List.flatten_append, List.length_append, List.flatten_cons, List.flatten_nil,
        List.append_nil]
    rw [el] at hl
    rw [e]
    obtain ⟨f, rfl⟩ : ∃ f, fuel = f + 1 := ⟨fuel - 1, by omega⟩
    have hne : (X ++ ws.flatten) ++ w ≠ [] := by simp [hwn]
    have hd := decodeLastRune_append_space (X ++ ws.flatten) w hw
    have htake : ((X ++ ws.flatten) ++ w).take (((X ++ ws.flatten) ++ w).length - w.length)
        = X ++ ws.flatten := by
      have : ((X ++ ws.flatten) ++ w).length - w.length = (X ++ ws.flatten).length := by
        simp only [List.length_append]
        omega
      rw [this, List.take_left]
    simp only [lastIndexFunc, hne, if_false, hd, hs, if_true, hlen, htake]
    exact ih (fun w' hw' => h w' (by simp [hw'])) f (by omega)

theorem trimRight_token_spaces (L : Bytes) (ws : List Bytes) (hL : L ≠ [])
    (hns : isSpace (decodeLastRune L).1 = false) (hws : ∀ w ∈ ws, isSpaceChar w = true) :
    trimRight (L ++ ws.flatten) = L := by
  have hLl : 0 < L.length := List.length_pos.mpr hL
  have hk := decodeLastRune_width_pos L hL
  obtain ⟨fuel', hf, hidx⟩ := lastIndexFunc_spaces L ws hws (L ++ ws.flatten).length
    (by simp only [List.length_append]; omega)
  obtain ⟨f, rfl⟩ : ∃ f, fuel' = f + 1 := ⟨fuel' - 1, by omega⟩
  have hidx2 : lastIndexFunc (L ++ ws.flatten).length (L ++ ws.flatten)
      = some (L.length - (decodeLastRune L).2) := by
    rw [hidx]
    simp only [lastIndexFunc, hL, if_false, hns, Bool.false_eq_true]
  unfold trimRight
  rw [hidx2]
  simp only []
  have hsr := startsRune_flatten ws hws
  have key : ∀ i, i < L.length →
      (L ++ ws.flatten).getD i 0 = L.getD i 0
      ∧ decodeRune ((L ++ ws.flatten).drop i) = decodeRune (L.drop i) := by
    intro i hi
    refine ⟨?_, ?_⟩
    · simp [List.getD_eq_getElem?_getD, List.getElem?_append_left hi]
    · rw [List.drop_append_of_le_length (by omega)]
      exact decodeRune_append_startsRune _ _ (by simp; omega) hsr
  have hcons : ∀ i, i < L.length → L.drop i = L.getD i 0 :: L.drop (i + 1) := by
    intro i hi
    rw [List.drop_eq_getElem_cons hi]
    simp [List.getD_eq_getElem?_getD, List.getElem?_eq_getElem hi]
  rcases decodeLastRune_cases L hL with hc | ⟨i, h1, h2⟩
  · rw [hc] at hk ⊢
    simp only []
    have hi : L.length - 1 < L.length := by omega
    obtain ⟨k1, k2⟩ := key (L.length - 1) hi
    rw [k1, k2]
    have hdl : (L.drop (L.length - 1)).length = 1 := by
      simp only [List.length_drop]; omega
    have hdne : L.drop (L.length - 1) ≠ [] := by
      intro h; rw [h] at hdl; simp at hdl
    have hw := decodeRune_width_le _ hdne
    have hw1 : (decodeRune (L.drop (L.length - 1))).2 = 1 := by omega
    have hfin : L.length - 1 + 1 = L.length := by omega
    split
    · rw [hw1, hfin, List.take_left]
    · rw [hfin, List.take_left]
  · have hi : L.length - (decodeLastRune L).2 = i := by omega
    have hil : i < L.length := by omega
    rw [hi]
    obtain ⟨k1, k2⟩ := key i hil
    rw [k1, k2]
    split
    · rw [h1, h2, List.take_left]
    · rename_i hlt
      have hc := hcons i hil
      generalize L.getD i 0 = c at hc hlt
      have hlead : leadInfo c = none := by
        unfold leadInfo
        split_ifs <;> first | rfl | omega
      have hw1 : (decodeRune (L.drop i)).2 = 1 := by
        rw [hc]
        simp [decodeRune, hlead]
      rw [h1] at hw1
      have hfin : i + 1 = L.length := by omega
      rw [hfin, List.take_left]

theorem lastToken_lastLine_trimSpace (p : Bytes) :
    lastToken (lastLine (trimSpace p)) = lastToken p := by
  rcases forward_decomp p.length p (Nat.le_refl _) with
    ⟨ws, hws, hp⟩ | ⟨a, T, ws, hp, ha, hT, hns, hws⟩
  · subst hp
    have h1 : trimSpace ws.flatten = [] := by
      unfold trimSpace
      rw [trimLeft_spaces ws hws _ (Nat.le_refl _)]
      rfl
    rw [h1]
    have h2 : lastLine [] = [] := by decide
    rw [h2]
    simp only [lastToken, fields_spaces ws hws]
    rfl
  · have hsr := startsRune_flatten ws hws
    have hhead : isSpace (decodeRune (T ++ ws.flatten)).1 = false := by
      rw [decodeRune_append_startsRune T _ hT hsr]
      exact containsSpace_head T hns
    have hrhs : lastToken p = T := by
      rw [hp]
      simp only [lastToken, fields_last_token a T ws ha hT hns hws]
      rfl
    rw [hrhs]
    have main : ∀ (w L : Bytes), isSpaceChar w = true → (L = T ∨ ∃ u, L = u ++ (w ++ T)) →
        trimLeft p.length p = L ++ ws.flatten → lastToken (lastLine (trimSpace p)) = T := by
      intro w L hw hL htl
      have hLne : L ≠ [] := by
        rcases hL with h | ⟨u, h⟩ <;> rw [h] <;> simp [hT]
      have htrim : trimSpace p = L := by
        unfold trimSpace
        rw [htl]
        exact trimRight_token_spaces L ws hLne (decodeLastRune_good w T hw hns hT L hL) hws
      rw [htrim]
      unfold lastLine lastToken
      rcases lastLine_good w T hw hns L hL with h | ⟨u, h⟩
      · rw [h, fields_token T hns hT]
        rfl
      · rw [h, fields_last w T u hw hns hT]
        rfl
    rcases ha with ha | ⟨a', w, ha, hw⟩
    · subst ha
      apply main [32] T (by decide) (Or.inl rfl)
      rw [hp]
      simp only [List.nil_append]
      exact trimLeft_of_not_space _ _ hhead
    · subst ha
      have e : (a' ++ w) ++ (T ++ ws.flatten) = a' ++ (w ++ (T ++ ws.flatten)) := by
        simp only [List.append_assoc]
      rcases trimLeft_good_head w (T ++ ws.flatten) a' hw hhead with h | ⟨u, h⟩
      · apply main w T hw (Or.inl rfl)
        rw [hp, e]
        exact h
      · apply main w (u ++ (w ++ T)) hw (Or.inr ⟨u, rfl⟩)
        rw [hp, e, h]
        simp only [List.append_assoc]

theorem extractName_lastToken (data : Bytes) :
    extractName data = some (lastToken (beforeDotLocal data)) := by
  rw [extractName_eq, ← lastToken_lastLine_trimSpace]
  rfl

theorem beforeDotLocal_of_not_contains (data : Bytes) (h : contains data dotLocal = false) :
    beforeDotLocal data = data := by
  unfold contains at h
  unfold beforeDotLocal
  cases hx : index dotLocal data with
  | none => rfl
  | some m => simp [hx] at h

/-- C20: `extractName(data)` is the last white-space-separated token of the bytes before the
first `.local` (of all of `data` when there is none), the empty string when there is no
token; trimming and keeping the last line never change the last token, and `parts` is never
empty. -/
theorem extractName_refines (data : Bytes) :
    extractName data = some (lastToken (beforeDotLocal data))
    ∧ (contains data dotLocal = false → extractName data = some (lastToken data))
    ∧ (∀ p : Bytes, lastToken (lastLine (trimSpace p)) = lastToken p)
    ∧ (split data dotLocal).length ≠ 0 := by
  refine ⟨extractName_lastToken data, ?_, lastToken_lastLine_trimSpace, ?_⟩
  · intro h
    rw [extractName_lastToken, beforeDotLocal_of_not_contains data h]
  · intro h
    exact genSplit_ne_nil _ _ _ (List.eq_nil_of_length_eq_zero h)

/-- Instance of C20: a packet without `.local`: the last token of the whole packet. -/
theorem extractName_refines_witness :
    extractName [97, 32, 98, 10] = some (lastToken [97, 32, 98, 10]) :=
  (extractName_refines [97, 32, 98, 10]).2.1 (by decide)

theorem onlySpaceLoop_spaces : ∀ (ws : List Bytes), (∀ w ∈ ws, isSpaceChar w = true) →
    ∀ (fuel : Nat), ws.flatten.length ≤ fuel → onlySpaceLoop fuel ws.flatten = true := by
  intro ws
  induction ws with
  | nil =>
    intro _ fuel _
    cases fuel <;> simp [onlySpaceLoop]
  | cons w ws ih =>
    intro h fuel hl
    obtain ⟨hs, hlen, hwn⟩ := isSpaceChar_spec w (h w (by simp))
    have hwl : 0 < w.length := List.length_pos.mpr hwn
    simp only [List.flatten_cons, List.length_append] at hl ⊢
    obtain ⟨f, rfl⟩ : ∃ f, fuel = f + 1 := ⟨fuel - 1, by omega⟩
    have hne : w ++ ws.flatten ≠ [] := by simp [hwn]
    simp only [onlySpaceLoop, hne, if_false, decodeRune_append_of_space w _ hs, hs, hlen,
      List.drop_left, Bool.true_and]
    exact ih (fun w' hw' => h w' (by simp [hw'])) f (by omega)

theorem onlySpaceLoop_reach (t : Bytes) (ht : startsRune t = true) : ∀ (fuel : Nat) (u : Bytes),
    u.length + t.length ≤ fuel →
    onlySpaceLoop fuel (u ++ t) = false
    ∨ ∃ fuel', t.length ≤ fuel' ∧ onlySpaceLoop fuel (u ++ t) = onlySpaceLoop fuel' t := by
  intro fuel
  induction fuel with
  | zero =>
    intro u hl
    have : u = [] := List.eq_nil_of_length_eq_zero (by omega)
    subst this
    exact Or.inr ⟨0, by omega, by simp⟩
  | succ fuel ih =>
    intro u hl
    by_cases hu : u = []
    · subst hu
      exact Or.inr ⟨fuel + 1, by simpa using hl, by simp⟩
    · have hd := decodeRune_append_startsRune u t hu ht
      have hw := decodeRune_width_le u hu
      have hne : u ++ t ≠ [] := by simp [hu]
      have hdrop : (u ++ t).drop (decodeRune u).2 = u.drop (decodeRune u).2 ++ t :=
        List.drop_append_of_le_length hw.2
      simp only [onlySpaceLoop, hne, if_false, hd, hdrop]
      cases hsp : isSpace (decodeRune u).1 with
      | false => left; simp
      | true =>
        simp only [Bool.true_and]
        exact ih (u.drop (decodeRune u).2) (by simp only [List.length_drop]; omega)

theorem onlySpace_token (a T : Bytes) (ws : List Bytes)
    (ha : a = [] ∨ ∃ a' w, a = a' ++ w ∧ isSpaceChar w = true) (hT : T ≠ [])
    (hns : containsSpace T = false) (hws : ∀ w ∈ ws, isSpaceChar w = true) :
    onlySpace (a ++ (T ++ ws.flatten)) = false := by
  have hsr := startsRune_flatten ws hws
  have hhead : isSpace (decodeRune (T ++ ws.flatten)).1 = false := by
    rw [decodeRune_append_startsRune T _ hT hsr]
    exact containsSpace_head T hns
  have hTl : 0 < T.length := List.length_pos.mpr hT
  have htok : ∀ fuel, T.length + ws.flatten.length ≤ fuel →
      onlySpaceLoop fuel (T ++ ws.flatten) = false := by
    intro fuel hl
    obtain ⟨f, rfl⟩ : ∃ f, fuel = f + 1 := ⟨fuel - 1, by omega⟩
    have hne : T ++ ws.flatten ≠ [] := by simp [hT]
    simp only [onlySpaceLoop, hne, if_false, hhead, Bool.false_and]
  unfold onlySpace
  rcases ha with ha | ⟨a', w, ha, hw⟩
  · subst ha
    exact htok _ (by simp only [List.nil_append, List.length_append]; omega)
  · subst ha
    obtain ⟨hs, hlen, hwn⟩ := isSpaceChar_spec w hw
    have hwl : 0 < w.length := List.length_pos.mpr hwn
    have hsr2 : startsRune (w ++ (T ++ ws.flatten)) = true :=
      startsRune_of_space _ (by rw [decodeRune_append_of_space w _ hs]; exact hs)
    have e : (a' ++ w) ++ (T ++ ws.flatten) = a' ++ (w ++ (T ++ ws.flatten)) := by
      simp only [List.append_assoc]
    rw [e]
    rcases onlySpaceLoop_reach (w ++ (T ++ ws.flatten)) hsr2
      (a' ++ (w ++ (T ++ ws.flatten))).length a'
      (by simp only [List.length_append]; omega) with h | ⟨fuel', h1, h2⟩
    · exact h
    · rw [h2]
      simp only [List.length_append] at h1
      obtain ⟨f, rfl⟩ : ∃ f, fuel' = f + 1 := ⟨fuel' - 1, by omega⟩
      have hne2 : w ++ (T ++ ws.flatten) ≠ [] := by simp [hwn]
      simp only [onlySpaceLoop, hne2, if_false, decodeRune_append_of_space w _ hs, hs, hlen,
        List.drop_left, Bool.true_and]
      exact htok f (by omega)

theorem lastToken_eq_nil_iff (p : Bytes) : lastToken p = [] ↔ onlySpace p = true := by
  rcases forward_decomp p.length p (Nat.le_refl _) with
    ⟨ws, hws, hp⟩ | ⟨a, T, ws, hp, ha, hT, hns, hws⟩
  · subst hp
    have h1 : lastToken ws.flatten = [] := by
      simp only [lastToken, fields_spaces ws hws]
      rfl
    have h2 : onlySpace ws.flatten = true := onlySpaceLoop_spaces ws hws _ (Nat.le_refl _)
    simp [h1, h2]
  · have h1 : lastToken p = T := by
      rw [hp]
      simp only [lastToken, fields_last_token a T ws ha hT hns hws]
      rfl
    have h2 : onlySpace p = false := by
      rw [hp]
      exact onlySpace_token a T ws ha hT hns hws
    simp [h1, h2, hT]

/-- C17: for received bytes that contain `.local`, `extractName` returns the empty string
exactly when the bytes before the first `.local` are empty or white space only, and exactly
then the iteration ends with no effect at all: nothing sent, the cache not consulted,
whatever the cache holds. -/
theorem extractName_empty_iff (cache : Cache) (now : Int) (payload : Bytes) (src : UDPAddr)
    (hcon : contains (payload.take 1024) dotLocal = true) :
    (extractName (payload.take 1024) = some []
      ↔ onlySpace (beforeDotLocal (payload.take 1024)) = true)
    ∧ (loopIteration cache now (Recv.datagram payload src) = some (cache, [])
      ↔ onlySpace (beforeDotLocal (payload.take 1024)) = true) := by
  have hx := extractName_lastToken (payload.take 1024)
  have hiff := lastToken_eq_nil_iff (beforeDotLocal (payload.take 1024))
  refine ⟨?_, ?_⟩
  · rw [hx, ← hiff]
    simp
  · rw [← hiff]
    unfold loopIteration
    simp only [hcon, Bool.not_true, Bool.false_eq_true, if_false, hx]
    by_cases hn : lastToken (beforeDotLocal (payload.take 1024)) = []
    · simp [hn]
    · simp only [hn, if_false, iff_false]
      cases getCachedIP cache now (lastToken (beforeDotLocal (payload.take 1024))) with
      | none => simp
      | some ip =>
        simp only []
        split <;> simp

/-- Instance of C17: the packet `" .local"` with an entry under the empty key. -/
theorem extractName_empty_iff_witness :
    extractName (([32] ++ dotLocal).take 1024) = some []
    ∧ loopIteration emptyKeyCache 5 (Recv.datagram ([32] ++ dotLocal) querier)
        = some (emptyKeyCache, []) :=
  ⟨(extractName_empty_iff emptyKeyCache 5 ([32] ++ dotLocal) querier (by decide)).1.mpr
      (by decide),
   (extractName_empty_iff emptyKeyCache 5 ([32] ++ dotLocal) querier (by decide)).2.mpr
      (by decide)⟩

theorem containsSpace_replicate (n : Nat) : containsSpace (List.replicate n 97) = false := by
  induction n with
  | zero => rfl
  | succ n ih =>
    have hl : leadInfo 97 = none := by decide
    have hd : ∀ t : Bytes, decodeRune (97 :: t) = (97, 1) := by
      intro t
      simp [decodeRune, hl]
    simp only [List.replicate_succ, containsSpace, hd, ih, Bool.or_false]
    decide

theorem index_dotLocal_of_not_mem : ∀ s : Bytes, 46 ∉ s → index dotLocal s = none := by
  intro s
  induction s with
  | nil => intro _; decide
  | cons c s ih =>
    intro h
    have hc : c ≠ 46 := fun e => h (by simp [e])
    have hs : 46 ∉ s := fun e => h (by simp [e])
    have hp : hasPrefix (c :: s) dotLocal = false := by
      simp [hasPrefix, dotLocal, hc]
    simp only [index, hp, ih hs]
    simp

theorem encodeLabels_eq_flatten (labels : List Bytes) :
    encodeLabels labels = (labels.map (fun l => (l.length % 256) :: l)).flatten := by
  induction labels with
  | nil => rfl
  | cons l ls ih => simp [encodeLabels, ih]

theorem longLabel_length : longLabel.length = 256 := by
  unfold longLabel
  rw [List.length_replicate]

theorem not_mem_longLabel : 46 ∉ longLabel := by
  intro h
  have := List.eq_of_mem_replicate h
  omega

/-- C19: the byte written before each emitted label is the label's length modulo 256, which
is the length exactly for labels shorter than 256 bytes; the 263-byte packet
`" " ++ 256 × "a" ++ ".local"` yields a name whose first label has 256 bytes, and the byte
written before it is 00. -/
theorem length_byte_mod_256 :
    (∀ name ip : Bytes, buildFakeMDNSResponse name ip
        = header ++ ((((split name dot).takeWhile nonEmpty).map
            (fun l => (l.length % 256) :: l)).flatten) ++ [0x00] ++ fixedFields ++ rdata ip)
    ∧ (∀ l : Bytes, l.length % 256 = l.length ↔ l.length < 256)
    ∧ longQuery.length ≤ 1024
    ∧ contains longQuery dotLocal = true
    ∧ extractName longQuery = some longLabel
    ∧ longLabel.length = 256
    ∧ buildFakeMDNSResponse (longLabel ++ dotLocal ++ dot) ip42
        = header ++ ([0x00] ++ longLabel ++ [5, 108, 111, 99, 97, 108]) ++ [0x00]
          ++ fixedFields ++ [192, 168, 1, 42] := by
  have hmem : 46 ∉ [32] ++ longLabel := by
    intro h
    rcases List.mem_append.mp h with h | h
    · simp at h
    · exact not_mem_longLabel h
  have hi : index dotLocal ([32] ++ longLabel) = none := index_dotLocal_of_not_mem _ hmem
  refine ⟨?_, ?_, ?_, ?_, ?_, longLabel_length, ?_⟩
  · intro name ip
    rw [buildFakeMDNSResponse_eq_encode, encodeLabels_eq_flatten]
  · intro l
    constructor
    · intro h
      have := Nat.mod_lt l.length (show 256 > 0 by decide)
      omega
    · intro h
      exact Nat.mod_eq_of_lt h
  · simp [longQuery, longLabel_length, dotLocal]
  · have := index_append_dotLocal [] ([32] ++ longLabel) hi
    simp only [List.append_nil] at this
    simp only [contains, longQuery, this]
    rfl
  · have h := extractName_of_token [] [32] longLabel [] (by decide)
      (by intro e; have := longLabel_length; rw [e] at this; simp at this)
      (containsSpace_replicate 256) (by
        simp only [List.nil_append, contains, hi]
        rfl)
    simp only [List.nil_append, List.append_nil] at h
    exact h
  · have hname : longLabel ++ dotLocal = dot.intercalate [longLabel, [108, 111, 99, 97, 108]] := by
      simp [dot, dotLocal, List.intercalate]
    have hsplit : (dot.intercalate [longLabel, [108, 111, 99, 97, 108]]).splitOn 46
        = [longLabel, [108, 111, 99, 97, 108]] :=
      List.splitOn_intercalate _ 46 (by
        intro l hl
        rcases List.mem_cons.mp hl with h | h
        · rw [h]; exact not_mem_longLabel
        · simp at h
          rw [h]
          decide) (by simp)
    have htw : List.takeWhile nonEmpty [longLabel, [108, 111, 99, 97, 108]]
        = [longLabel, [108, 111, 99, 97, 108]] :=
      takeWhile_nonEmpty_all _ (by
        intro l hl
        rcases List.mem_cons.mp hl with h | h
        · rw [h]
          intro e
          have := longLabel_length
          rw [e] at this
          simp at this
        · simp at h
          rw [h]
          decide)
    have hr : rdata ip42 = [192, 168, 1, 42] := by decide
    rw [buildFakeMDNSResponse_append_dot, buildFakeMDNSResponse_eq_encode, hname]
    have hs2 : split (dot.intercalate [longLabel, [108, 111, 99, 97, 108]]) dot
        = [longLabel, [108, 111, 99, 97, 108]] := by
      rw [show dot = [46] from rfl, split_single]
      exact hsplit
    rw [hs2, htw, hr]
    simp [encodeLabels, longLabel_length]

end Imposter
